import Mathlib

/-!
Verification development for the Horadric-cube valuation/optimization engine
(`scripts/horadric_cube/` in the repository).

The Python sources are shallowly embedded: Python `float` values are modelled
as rationals (`ℚ`), Python `int` as `Int` (or `Nat` where the source
guarantees non-negativity), Python dicts keyed by ints as association lists,
and fallible code as `Except`/`Option`.  Definitions mirror the source
function by function; string metadata fields (names, descriptions, icons)
that never influence the verified computations are omitted from the records.
-/

namespace HoradricCube

/-! ## Data model (`models.py`) -/

/-- Mirror of `models.ItemType` — an item is either a regular (permanent)
item or a consumable/oil (usable) item. -/
inductive ItemType where
  | regular
  | oil
  | consumable
deriving DecidableEq, Repr

/-- Mirror of `models.Item` restricted to the fields read by the embedded
code (`id`, `item_type`, `rarity`, `required_wave_level`).  The remaining
string metadata fields are never consulted by the verified functions. -/
structure Item where
  id : Int
  item_type : ItemType
  rarity : Int
  required_wave_level : Int
deriving DecidableEq, Repr

/-- Mirror of `Item.is_permanent`. -/
def Item.is_permanent (it : Item) : Bool :=
  it.item_type == ItemType.regular

/-- Mirror of `Item.is_usable`. -/
def Item.is_usable (it : Item) : Bool :=
  it.item_type == ItemType.oil || it.item_type == ItemType.consumable

/-- Mirror of `models.ResultItemType`. -/
inductive ResultItemType where
  | permanent
  | usable
  | none
deriving DecidableEq, Repr

/-- Mirror of `models.Recipe` restricted to the fields read by the embedded
code. -/
structure Recipe where
  id : Int
  permanent_count : Int
  usable_count : Int
  result_item_type : ResultItemType
  result_count : Int
  rarity_change : Int
  lvl_bonus_min : Int
  lvl_bonus_max : Int
deriving DecidableEq, Repr

/-- Mirror of `constants.RECIPE_PRECIPITATE`. -/
def RECIPE_PRECIPITATE : Int := 6

/-- Mirror of `levels_and_pools.MAX_LEVEL_BOUND`. -/
def MAX_LEVEL_BOUND : Int := 100000

/-- `ItemDatabase.items` is a Python dict `id -> Item`; we embed it as the
list of its values (iteration order) and model `items.get(item_id)` by
`db_get`.  Dict keys are unique, which is reflected where needed by a
`Nodup` hypothesis on the item ids. -/
def db_get (item_db : List Item) (item_id : Int) : Option Item :=
  item_db.find? (fun it => it.id == item_id)

/-! ## `levels_and_pools.compute_missing_permanent_sum_bounds` -/

/-- Mirror of the explicit-permanent-level collection loop shared by
`compute_avg_permanent_level` and `compute_missing_permanent_sum_bounds`:
for each explicit ingredient id, look the item up in the database, skip
missing or non-permanent items, and collect `required_wave_level`. -/
def explicit_permanent_levels (item_db : List Item) (explicit_item_ids : List Int) :
    List Int :=
  explicit_item_ids.filterMap (fun item_id =>
    match db_get item_db item_id with
    | some it => if it.is_permanent then some it.required_wave_level else none
    | none => none)

/-- Mirror of `levels_and_pools.compute_missing_permanent_sum_bounds`.
Python's `//` is floor division, embedded as `Int.fdiv`. -/
def compute_missing_permanent_sum_bounds (recipe : Recipe) (item_db : List Item)
    (explicit_item_ids : List Int) (avg_permanent_level : Int) :
    Option (Int × Int × Int) :=
  let total_permanent_count := recipe.permanent_count
  if total_permanent_count ≤ 0 then none
  else
    let levels := explicit_permanent_levels item_db explicit_item_ids
    let explicit_count : Int := levels.length
    if explicit_count > total_permanent_count then none
    else
      let missing_count := total_permanent_count - explicit_count
      let sum_explicit := levels.sum
      if missing_count = 0 then
        let avg_from_explicit := Int.fdiv sum_explicit (max total_permanent_count 1)
        if avg_from_explicit ≠ avg_permanent_level then none
        else some (0, 0, 0)
      else
        let sum_rest_min := max 0 (total_permanent_count * avg_permanent_level - sum_explicit)
        let sum_rest_max := total_permanent_count * (avg_permanent_level + 1) - 1 - sum_explicit
        if sum_rest_min > sum_rest_max then none
        else some (sum_rest_min, sum_rest_max, missing_count)

/-- Floor division is characterized by the usual bracketing inequalities for
a positive divisor. -/
theorem fdiv_eq_of_bounds {x d q : Int} (hd : 0 < d) (h1 : d * q ≤ x)
    (h2 : x < d * (q + 1)) : Int.fdiv x d = q := by
  rw [Int.fdiv_eq_ediv _ hd.le]
  have hle : q ≤ x / d := (Int.le_ediv_iff_mul_le hd).2 (by nlinarith)
  have hlt : x / d < q + 1 := (Int.ediv_lt_iff_lt_mul hd).2 (by nlinarith)
  omega

/-- C3 (counterexample): with `permanent_count = 2`, two explicit permanent
ingredients of level 2 each (`sum_explicit = 4`) and target average 2, the
code returns `(0, 0, 0)`, whereas the range claimed by the specification,
`[max(0, 2·2 − 4), 2·(2+1) − 1 − 4] = [0, 1]`, would be `(0, 1, 0)`. -/
theorem C3_counterexample_zero_missing_range :
    compute_missing_permanent_sum_bounds
        ⟨3, 2, 0, ResultItemType.permanent, 1, 0, 0, 0⟩
        [⟨1, ItemType.regular, 0, 2⟩, ⟨2, ItemType.regular, 0, 2⟩]
        [1, 2] 2 = some (0, 0, 0) ∧
      some ((0 : Int), (0 : Int), (0 : Int)) ≠
        some ((max 0 (2 * 2 - 4) : Int), (2 * (2 + 1) - 1 - 4 : Int), (0 : Int)) := by
  constructor
  · decide
  · decide

/-- C3 (amended): for a recipe with `permanent_count > 0`, writing `levels`
for the explicit permanent levels found in the database and `sum_explicit`
for their sum, `compute_missing_permanent_sum_bounds`
(a) returns `none` when the explicit permanent count exceeds the slots;
(b) with zero missing slots returns `(0, 0, 0)` when the integer average of
the explicit levels equals `avg` and `none` otherwise;
(c) with missing slots returns the range
`[max(0, total·avg − sum_explicit), total·(avg+1) − 1 − sum_explicit]`
with the missing count, or `none` when that range is empty; and
(d) every integer `s` in a returned range satisfies
`(sum_explicit + s) // total = avg` (floor division). -/
theorem C3_bounds_characterization (recipe : Recipe) (item_db : List Item)
    (explicit_item_ids : List Int) (avg : Int) (levels : List Int)
    (hpc : 0 < recipe.permanent_count)
    (hlev : explicit_permanent_levels item_db explicit_item_ids = levels) :
    (((levels.length : Int) > recipe.permanent_count →
        compute_missing_permanent_sum_bounds recipe item_db explicit_item_ids avg = none)
      ∧ ((levels.length : Int) = recipe.permanent_count →
        compute_missing_permanent_sum_bounds recipe item_db explicit_item_ids avg =
          if Int.fdiv levels.sum recipe.permanent_count = avg then some (0, 0, 0) else none)
      ∧ ((levels.length : Int) < recipe.permanent_count →
        compute_missing_permanent_sum_bounds recipe item_db explicit_item_ids avg =
          if max 0 (recipe.permanent_count * avg - levels.sum) >
              recipe.permanent_count * (avg + 1) - 1 - levels.sum
          then none
          else some (max 0 (recipe.permanent_count * avg - levels.sum),
            recipe.permanent_count * (avg + 1) - 1 - levels.sum,
            recipe.permanent_count - levels.length)))
    ∧ (∀ lo hi mc, compute_missing_permanent_sum_bounds recipe item_db explicit_item_ids avg =
          some (lo, hi, mc) →
        ∀ s : Int, lo ≤ s → s ≤ hi → Int.fdiv (levels.sum + s) recipe.permanent_count = avg) := by
  have hmax : max recipe.permanent_count 1 = recipe.permanent_count := by omega
  have key : compute_missing_permanent_sum_bounds recipe item_db explicit_item_ids avg =
      (if (levels.length : Int) > recipe.permanent_count then none
       else if recipe.permanent_count - (levels.length : Int) = 0 then
         (if Int.fdiv levels.sum recipe.permanent_count ≠ avg then none else some (0, 0, 0))
       else if max 0 (recipe.permanent_count * avg - levels.sum) >
           recipe.permanent_count * (avg + 1) - 1 - levels.sum then none
       else some (max 0 (recipe.permanent_count * avg - levels.sum),
         recipe.permanent_count * (avg + 1) - 1 - levels.sum,
         recipe.permanent_count - (levels.length : Int))) := by
    simp only [compute_missing_permanent_sum_bounds, hlev, hmax]
    rw [if_neg (by omega)]
  have part1 : (levels.length : Int) > recipe.permanent_count →
      compute_missing_permanent_sum_bounds recipe item_db explicit_item_ids avg = none := by
    intro hgt
    rw [key, if_pos hgt]
  have part2 : (levels.length : Int) = recipe.permanent_count →
      compute_missing_permanent_sum_bounds recipe item_db explicit_item_ids avg =
        if Int.fdiv levels.sum recipe.permanent_count = avg then some (0, 0, 0) else none := by
    intro heq
    rw [key, if_neg (by omega), if_pos (by omega)]
    by_cases havg : Int.fdiv levels.sum recipe.permanent_count = avg
    · rw [if_neg (by simpa using havg), if_pos havg]
    · rw [if_pos havg, if_neg havg]
  have part3 : (levels.length : Int) < recipe.permanent_count →
      compute_missing_permanent_sum_bounds recipe item_db explicit_item_ids avg =
        if max 0 (recipe.permanent_count * avg - levels.sum) >
            recipe.permanent_count * (avg + 1) - 1 - levels.sum
        then none
        else some (max 0 (recipe.permanent_count * avg - levels.sum),
          recipe.permanent_count * (avg + 1) - 1 - levels.sum,
          recipe.permanent_count - levels.length) := by
    intro hlt
    rw [key, if_neg (by omega), if_neg (by omega)]
  refine ⟨⟨part1, part2, part3⟩, ?_⟩
  intro lo hi mc hsome s hslo hshi
  rcases lt_trichotomy ((levels.length : Int)) recipe.permanent_count with hlt | heq | hgt
  · rw [part3 hlt] at hsome
    split_ifs at hsome with hrange
    injection hsome with h
    rw [Prod.mk.injEq, Prod.mk.injEq] at h
    obtain ⟨h1, h2, h3⟩ := h
    subst h1
    subst h2
    have hub : levels.sum + s < recipe.permanent_count * (avg + 1) := by linarith
    have hlb : recipe.permanent_count * avg ≤ levels.sum + s := by
      have h4 : recipe.permanent_count * avg - levels.sum ≤ s :=
        le_trans (le_max_right _ _) hslo
      linarith
    exact fdiv_eq_of_bounds hpc hlb hub
  · rw [part2 heq] at hsome
    split_ifs at hsome with havg
    injection hsome with h
    rw [Prod.mk.injEq, Prod.mk.injEq] at h
    obtain ⟨h1, h2, h3⟩ := h
    subst h1
    subst h2
    have hs0 : s = 0 := le_antisymm hshi hslo
    subst hs0
    rw [add_zero]
    exact havg
  · rw [part1 hgt] at hsome
    exact Option.noConfusion hsome

/-- C3 witness: a concrete instantiation of `C3_bounds_characterization`
(recipe with 2 permanent slots, one explicit level-2 ingredient, average 1)
with all hypotheses discharged by evaluation. -/
theorem C3_bounds_characterization_witness :
    (0 : Int) < 2 ∧
      compute_missing_permanent_sum_bounds
          ⟨3, 2, 0, ResultItemType.permanent, 1, 0, 0, 0⟩
          [⟨1, ItemType.regular, 0, 2⟩] [1] 1 = some (0, 1, 1) ∧
      Int.fdiv (2 + 1) 2 = 1 := by
  have h := C3_bounds_characterization
    ⟨3, 2, 0, ResultItemType.permanent, 1, 0, 0, 0⟩
    [⟨1, ItemType.regular, 0, 2⟩] [1] 1 [2] (by decide) (by decide)
  refine ⟨by decide, ?_, ?_⟩
  · have h3 := h.1.2.2 (by decide)
    rw [h3]
    decide
  · have h3 := h.1.2.2 (by decide)
    have hmain := h.2 0 1 1 (by rw [h3]; decide) 1 (by decide) (by decide)
    exact hmain

/-! ## `k_sum_with_reuse.find_k_sum_with_reuse`

The Python function fills a boolean table `dp[used][s]` (can sum `s` be
reached with exactly `used` values, reuse allowed?) row by row, records
parent pointers for the first transition that sets each cell, and walks the
parent pointers back to extract one witness.  Each row is a pure function of
the previous row, so the table is embedded as the recursion `dpRow`; the
source bounds the sum index by `target_sum`, which is redundant here because
the queried indices only ever decrease from `target_sum` (all values are
non-negative). -/

/-- Row semantics of the DP table: `dpRow vals used s = dp[used][s]`. -/
def dpRow (vals : List Nat) : Nat → Nat → Bool
  | 0, s => s == 0
  | u + 1, s => vals.any (fun v => decide (v ≤ s) && dpRow vals u (s - v))

/-- Mirror of the parent pointer `parent[u+1][ns]`: the source scans states
`s` in ascending order (and values in ascending order within each `s`), so
the recorded transition is the one with the smallest predecessor sum `s`
such that `dp[u][s]` holds and `ns - s` is an available value; the stored
value is `ns - s`. -/
def parentFor (vals : List Nat) (u ns : Nat) : Option Nat :=
  ((List.range (ns + 1)).find? (fun s => dpRow vals u s && decide ((ns - s) ∈ vals))).map
    (fun s => ns - s)

/-- Mirror of the witness-reconstruction loop (`while used > 0`), including
its defensive `return None` when a parent pointer is missing.  The Python
loop appends values walking downward and reverses at the end; appending at
the tail here produces the same order. -/
def reconstruct (vals : List Nat) : Nat → Nat → Option (List Nat)
  | 0, _ => some []
  | u + 1, s =>
    match parentFor vals u s with
    | some v => (reconstruct vals u (s - v)).map (fun l => l ++ [v])
    | none => none

/-- Mirror of `k_sum_with_reuse.find_k_sum_with_reuse`.  `raise ValueError`
is embedded as `Except.error`; `None` as `Except.ok none`. -/
def find_k_sum_with_reuse (nums : List Int) (k target_sum : Int) :
    Except String (Option (List Int)) :=
  if k < 0 then Except.error "k must be non-negative"
  else if target_sum < 0 then Except.error "target_sum must be non-negative"
  else
    let usable_values := nums.filter (fun v => decide (0 ≤ v) && decide (v ≤ target_sum))
    if usable_values.isEmpty then
      if k = 0 ∧ target_sum = 0 then Except.ok (some []) else Except.ok none
    else
      let vals : List Nat := List.insertionSort (· ≤ ·) (usable_values.map Int.toNat).dedup
      if k = 0 then Except.ok (if target_sum = 0 then some [] else none)
      else
        if dpRow vals k.toNat target_sum.toNat then
          Except.ok ((reconstruct vals k.toNat target_sum.toNat).map
            (fun l => l.map (fun n : Nat => (n : Int))))
        else Except.ok none

/-- The DP row is exactly reachability: `dp[u][s]` holds iff some list of
`u` values from `vals` (repetition allowed) sums to `s`. -/
theorem dpRow_iff (vals : List Nat) (u s : Nat) :
    dpRow vals u s = true ↔
      ∃ l : List Nat, l.length = u ∧ l.sum = s ∧ ∀ v ∈ l, v ∈ vals := by
  induction u generalizing s with
  | zero =>
    simp only [dpRow, beq_iff_eq]
    constructor
    · rintro rfl
      exact ⟨[], rfl, rfl, by simp⟩
    · rintro ⟨l, hlen, hsum, _⟩
      rw [List.length_eq_zero] at hlen
      subst hlen
      simpa using hsum.symm
  | succ u ih =>
    simp only [dpRow, List.any_eq_true, Bool.and_eq_true, decide_eq_true_eq]
    constructor
    · rintro ⟨v, hv, hvs, hdp⟩
      obtain ⟨l, hlen, hsum, hmem⟩ := (ih (s - v)).1 hdp
      refine ⟨v :: l, by simp [hlen], by simp [hsum]; omega, ?_⟩
      intro x hx
      rcases List.mem_cons.1 hx with rfl | hx
      · exact hv
      · exact hmem x hx
    · rintro ⟨l, hlen, hsum, hmem⟩
      cases l with
      | nil => simp at hlen
      | cons a l' =>
        refine ⟨a, hmem a (by simp), ?_, ?_⟩
        · simp only [List.sum_cons] at hsum
          omega
        · refine (ih (s - a)).2 ⟨l', by simpa using hlen, ?_, ?_⟩
          · simp only [List.sum_cons] at hsum
            omega
          · intro x hx
            exact hmem x (List.mem_cons_of_mem _ hx)

/-- Whenever `dp[u+1][ns]` holds, a parent pointer exists and records a
valid transition. -/
theorem parentFor_spec (vals : List Nat) (u ns : Nat)
    (h : dpRow vals (u + 1) ns = true) :
    ∃ v, parentFor vals u ns = some v ∧ v ∈ vals ∧ v ≤ ns ∧
      dpRow vals u (ns - v) = true := by
  simp only [dpRow, List.any_eq_true, Bool.and_eq_true, decide_eq_true_eq] at h
  obtain ⟨v, hv, hvs, hdp⟩ := h
  have hfind : (((List.range (ns + 1)).find?
      (fun s => dpRow vals u s && decide ((ns - s) ∈ vals)))).isSome := by
    rw [List.find?_isSome]
    refine ⟨ns - v, by simp [List.mem_range]; omega, ?_⟩
    simp only [Bool.and_eq_true, decide_eq_true_eq]
    exact ⟨hdp, by have : ns - (ns - v) = v := by omega
                   rw [this]; exact hv⟩
  obtain ⟨s0, hs0⟩ := Option.isSome_iff_exists.1 hfind
  have hs0mem := List.mem_of_find?_eq_some hs0
  have hs0le : s0 ≤ ns := by
    rw [List.mem_range] at hs0mem
    omega
  have hs0p := List.find?_some hs0
  simp only [Bool.and_eq_true, decide_eq_true_eq] at hs0p
  refine ⟨ns - s0, ?_, hs0p.2, by omega, ?_⟩
  · unfold parentFor
    rw [hs0]
    rfl
  · have : ns - (ns - s0) = s0 := by omega
    rw [this]
    exact hs0p.1

/-- When `dp[u][s]` holds, the reconstruction succeeds and yields a list of
`u` values from `vals` summing to `s`. -/
theorem reconstruct_spec (vals : List Nat) :
    ∀ u s, dpRow vals u s = true →
      ∃ l, reconstruct vals u s = some l ∧ l.length = u ∧ l.sum = s ∧
        ∀ v ∈ l, v ∈ vals := by
  intro u
  induction u with
  | zero =>
    intro s h
    simp only [dpRow, beq_iff_eq] at h
    subst h
    exact ⟨[], rfl, rfl, rfl, by simp⟩
  | succ u ih =>
    intro s h
    obtain ⟨v, hpar, hv, hvs, hdp⟩ := parentFor_spec vals u s h
    obtain ⟨l, hrec, hlen, hsum, hmem⟩ := ih (s - v) hdp
    refine ⟨l ++ [v], ?_, by simp [hlen], by simp [hsum]; omega, ?_⟩
    · unfold reconstruct
      rw [hpar]
      show (reconstruct vals u (s - v)).map (fun l => l ++ [v]) = some (l ++ [v])
      rw [hrec]
      rfl
    · intro x hx
      rcases List.mem_append.1 hx with hx | hx
      · exact hmem x hx
      · rw [List.mem_singleton] at hx
        subst hx
        exact hv

/-- Membership in the preprocessed value list is membership in the filtered
usable values. -/
theorem mem_vals_iff (usable : List Int) (hnn : ∀ v ∈ usable, 0 ≤ v) (n : Nat) :
    n ∈ List.insertionSort (· ≤ ·) (usable.map Int.toNat).dedup ↔
    (n : Int) ∈ usable := by
  rw [(List.perm_insertionSort _ _).mem_iff, List.mem_dedup, List.mem_map]
  constructor
  · rintro ⟨v, hv, rfl⟩
    rwa [Int.toNat_of_nonneg (hnn v hv)]
  · intro hmem
    exact ⟨(n : Int), hmem, Int.toNat_natCast n⟩

/-- Summing a list of non-negative integers commutes with `Int.toNat`. -/
theorem map_toNat_sum (l : List Int) (h : ∀ v ∈ l, 0 ≤ v) :
    ((l.map Int.toNat).sum : Int) = l.sum := by
  induction l with
  | nil => simp
  | cons a t ih =>
    simp only [List.map_cons, List.sum_cons, Nat.cast_add]
    rw [Int.toNat_of_nonneg (h a (by simp)), ih (fun v hv => h v (List.mem_cons_of_mem _ hv))]

/-- Casting a list of naturals to integers commutes with summation. -/
theorem map_natCast_sum (l : List Nat) :
    (l.map (fun n : Nat => (n : Int))).sum = (l.sum : Int) := by
  induction l with
  | nil => rfl
  | cons a t ih =>
    rw [List.map_cons, List.sum_cons, List.sum_cons, Nat.cast_add, ih]

/-- C2: over non-negative inputs, `find_k_sum_with_reuse` never raises and
(a) any returned witness has length `k`, sums to `target_sum`, and draws all
its values from `nums`; (b) it returns `None` exactly when no multiset of
`k` values from `nums` (with repetition) sums to `target_sum`; (c) `k = 0`
with `target_sum = 0` returns the empty witness; and (d) `k = 0` with
`target_sum > 0` returns `None`. -/
theorem C2_find_k_sum_contract (nums : List Int) (k target_sum : Int)
    (hnn : ∀ v ∈ nums, 0 ≤ v) (hk : 0 ≤ k) (ht : 0 ≤ target_sum) :
    (∀ w, find_k_sum_with_reuse nums k target_sum = Except.ok (some w) →
        (w.length : Int) = k ∧ w.sum = target_sum ∧ ∀ v ∈ w, v ∈ nums)
    ∧ (find_k_sum_with_reuse nums k target_sum = Except.ok none ↔
        ¬ ∃ l : List Int, (l.length : Int) = k ∧ l.sum = target_sum ∧ ∀ v ∈ l, v ∈ nums)
    ∧ (k = 0 → target_sum = 0 →
        find_k_sum_with_reuse nums k target_sum = Except.ok (some []))
    ∧ (k = 0 → 0 < target_sum →
        find_k_sum_with_reuse nums k target_sum = Except.ok none) := by
  have hk' := not_lt.2 hk
  have ht' := not_lt.2 ht
  set usable := nums.filter (fun v => decide (0 ≤ v) && decide (v ≤ target_sum))
    with husable
  set vals := List.insertionSort (· ≤ ·) (usable.map Int.toNat).dedup with hvals
  have usable_mem : ∀ v : Int, v ∈ usable ↔ v ∈ nums ∧ 0 ≤ v ∧ v ≤ target_sum := by
    intro v
    rw [husable, List.mem_filter]
    simp
  have usable_nn : ∀ v ∈ usable, 0 ≤ v := fun v hv => ((usable_mem v).1 hv).2.1
  have main : find_k_sum_with_reuse nums k target_sum =
      (if usable.isEmpty then
        (if k = 0 ∧ target_sum = 0 then Except.ok (some []) else Except.ok none)
       else if k = 0 then Except.ok (if target_sum = 0 then some [] else none)
       else if dpRow vals k.toNat target_sum.toNat then
         Except.ok ((reconstruct vals k.toNat target_sum.toNat).map
           (fun l => l.map (fun n : Nat => (n : Int))))
       else Except.ok none) := by
    unfold find_k_sum_with_reuse
    rw [if_neg hk', if_neg ht']
  have exist_iff :
      (∃ l : List Int, (l.length : Int) = k ∧ l.sum = target_sum ∧ ∀ v ∈ l, v ∈ nums) ↔
        dpRow vals k.toNat target_sum.toNat = true := by
    constructor
    · rintro ⟨l, hlen, hsum, hmem⟩
      apply (dpRow_iff vals k.toNat target_sum.toNat).2
      refine ⟨l.map Int.toNat, ?_, ?_, ?_⟩
      · rw [List.length_map]
        omega
      · have h1 := map_toNat_sum l (fun v hv => hnn v (hmem v hv))
        omega
      · intro n hn
        rw [List.mem_map] at hn
        obtain ⟨v, hv, rfl⟩ := hn
        have hv0 : 0 ≤ v := hnn v (hmem v hv)
        have hvle : v ≤ target_sum := by
          have := List.single_le_sum (fun x hx => hnn x (hmem x hx)) v hv
          omega
        rw [hvals]
        apply (mem_vals_iff usable usable_nn v.toNat).2
        rw [Int.toNat_of_nonneg hv0]
        exact (usable_mem v).2 ⟨hmem v hv, hv0, hvle⟩
    · intro hdp
      obtain ⟨l, hlen, hsum, hmem⟩ := (dpRow_iff vals _ _).1 hdp
      refine ⟨l.map (fun n : Nat => (n : Int)), ?_, ?_, ?_⟩
      · rw [List.length_map]
        omega
      · rw [map_natCast_sum, hsum]
        omega
      · intro v hv
        rw [List.mem_map] at hv
        obtain ⟨n, hn, rfl⟩ := hv
        rw [hvals] at hmem
        have hu : (n : Int) ∈ usable := (mem_vals_iff usable usable_nn n).1 (hmem n hn)
        exact ((usable_mem _).1 hu).1
  by_cases hE : usable.isEmpty
  · have he : usable = [] := List.isEmpty_iff.1 hE
    rw [main, if_pos hE]
    have emptyEx :
        (∃ l : List Int, (l.length : Int) = k ∧ l.sum = target_sum ∧
          ∀ v ∈ l, v ∈ nums) ↔ (k = 0 ∧ target_sum = 0) := by
      constructor
      · rintro ⟨l, hlen, hsum, hmem⟩
        cases l with
        | nil =>
          simp only [List.length_nil, Nat.cast_zero, List.sum_nil] at hlen hsum
          exact ⟨hlen.symm, hsum.symm⟩
        | cons a t =>
          have ha0 : 0 ≤ a := hnn a (hmem a (by simp))
          have hale : a ≤ target_sum := by
            have := List.single_le_sum (fun x hx => hnn x (hmem x hx)) a (by simp)
            omega
          have : a ∈ usable := (usable_mem a).2 ⟨hmem a (by simp), ha0, hale⟩
          rw [he] at this
          exact absurd this (List.not_mem_nil a)
      · rintro ⟨rfl, rfl⟩
        exact ⟨[], by simp, by simp, by simp⟩
    by_cases hzz : k = 0 ∧ target_sum = 0
    · rw [if_pos hzz]
      refine ⟨?_, ?_, fun _ _ => rfl, ?_⟩
      · intro w hw
        injection hw with h
        injection h with h2
        subst h2
        exact ⟨by simpa using hzz.1.symm, by simpa using hzz.2.symm, by simp⟩
      · apply iff_of_false
        · intro hcontra
          injection hcontra with h
          exact Option.noConfusion h
        · intro hno
          exact hno (emptyEx.2 hzz)
      · intro _ hpos
        exact absurd hpos (by omega)
    · rw [if_neg hzz]
      refine ⟨?_, iff_of_true rfl ?_, ?_, fun _ _ => rfl⟩
      · intro w hw
        injection hw with h
        exact Option.noConfusion h
      · intro hex
        exact hzz (emptyEx.1 hex)
      · intro h0 ht0
        exact absurd ⟨h0, ht0⟩ hzz
  · rw [main, if_neg hE]
    by_cases hk0 : k = 0
    · rw [if_pos hk0]
      by_cases ht0 : target_sum = 0
      · rw [if_pos ht0]
        refine ⟨?_, ?_, fun _ _ => rfl, ?_⟩
        · intro w hw
          injection hw with h
          injection h with h2
          subst h2
          exact ⟨by simpa using hk0.symm, by simpa using ht0.symm, by simp⟩
        · apply iff_of_false
          · intro hcontra
            injection hcontra with h
            exact Option.noConfusion h
          · intro hno
            exact hno ⟨[], by simp [hk0], by simp [ht0], by simp⟩
        · intro _ hpos
          exact absurd hpos (by omega)
      · rw [if_neg ht0]
        refine ⟨?_, iff_of_true rfl ?_, ?_, fun _ _ => rfl⟩
        · intro w hw
          injection hw with h
          exact Option.noConfusion h
        · rintro ⟨l, hlen, hsum, _⟩
          have : l = [] := by
            rw [← List.length_eq_zero]
            omega
          subst this
          simp only [List.sum_nil] at hsum
          exact ht0 hsum.symm
        · intro _ ht0'
          exact absurd ht0' ht0
    · rw [if_neg hk0]
      by_cases hdp : dpRow vals k.toNat target_sum.toNat = true
      · rw [if_pos hdp]
        obtain ⟨l, hrec, hlen, hsum, hmem⟩ := reconstruct_spec vals _ _ hdp
        rw [hrec]
        refine ⟨?_, ?_, fun h0 _ => absurd h0 hk0, fun h0 _ => absurd h0 hk0⟩
        · intro w hw
          injection hw with h
          injection h with h2
          subst h2
          refine ⟨by rw [List.length_map]; omega, ?_, ?_⟩
          · rw [map_natCast_sum, hsum]
            omega
          · intro v hv
            rw [List.mem_map] at hv
            obtain ⟨n, hn, rfl⟩ := hv
            rw [hvals] at hmem
            have hu : (n : Int) ∈ usable :=
              (mem_vals_iff usable usable_nn n).1 (hmem n hn)
            exact ((usable_mem _).1 hu).1
        · apply iff_of_false
          · intro hcontra
            injection hcontra with h
            exact Option.noConfusion h
          · intro hno
            exact hno (exist_iff.2 hdp)
      · rw [if_neg hdp]
        refine ⟨?_, iff_of_true rfl ?_,
          fun h0 _ => absurd h0 hk0, fun h0 _ => absurd h0 hk0⟩
        · intro w hw
          injection hw with h
          exact Option.noConfusion h
        · intro hex
          exact hdp (exist_iff.1 hex)

/-- C2 witness: concrete run of the contract on `nums = [1, 2]`, `k = 2`,
`target_sum = 3`, where the solver returns the witness `[1, 2]`. -/
theorem C2_find_k_sum_contract_witness :
    (∀ v ∈ ([1, 2] : List Int), 0 ≤ v) ∧
    find_k_sum_with_reuse [1, 2] 2 3 = Except.ok (some [1, 2]) ∧
    ((([1, 2] : List Int).length : Int) = 2 ∧ ([1, 2] : List Int).sum = 3 ∧
      ∀ v ∈ ([1, 2] : List Int), v ∈ ([1, 2] : List Int)) := by
  have hrun : find_k_sum_with_reuse [1, 2] 2 3 = Except.ok (some [1, 2]) := by rfl
  exact ⟨by decide, hrun,
    (C2_find_k_sum_contract [1, 2] 2 3 (by decide) (by decide) (by decide)).1 [1, 2] hrun⟩

/-- C6 (counterexample): at `k = 0`, `target_sum = 0` (a non-positive `k`
and `target_sum`), the function does not raise — it returns the empty
witness. -/
theorem C6_counterexample_no_raise_at_zero :
    find_k_sum_with_reuse [] 0 0 = Except.ok (some []) := by rfl

/-- C6 (amended): `find_k_sum_with_reuse` raises (returns `Except.error`)
exactly when `k` or `target_sum` is strictly negative; non-negative zero
arguments are handled as ordinary degenerate cases. -/
theorem C6_raises_iff_negative (nums : List Int) (k target_sum : Int) :
    (∃ msg, find_k_sum_with_reuse nums k target_sum = Except.error msg) ↔
      k < 0 ∨ target_sum < 0 := by
  by_cases h1 : k < 0
  · refine iff_of_true ⟨"k must be non-negative", ?_⟩ (Or.inl h1)
    unfold find_k_sum_with_reuse
    rw [if_pos h1]
  · by_cases h2 : target_sum < 0
    · refine iff_of_true ⟨"target_sum must be non-negative", ?_⟩ (Or.inr h2)
      unfold find_k_sum_with_reuse
      rw [if_neg h1, if_pos h2]
    · have main : find_k_sum_with_reuse nums k target_sum =
          (if (nums.filter (fun v => decide (0 ≤ v) && decide (v ≤ target_sum))).isEmpty then
            (if k = 0 ∧ target_sum = 0 then Except.ok (some []) else Except.ok none)
           else
             if k = 0 then Except.ok (if target_sum = 0 then some [] else none)
             else
               if dpRow (List.insertionSort (· ≤ ·)
                   (((nums.filter (fun v => decide (0 ≤ v) && decide (v ≤ target_sum))).map
                     Int.toNat)).dedup) k.toNat target_sum.toNat then
                 Except.ok ((reconstruct (List.insertionSort (· ≤ ·)
                     (((nums.filter (fun v => decide (0 ≤ v) && decide (v ≤ target_sum))).map
                       Int.toNat)).dedup) k.toNat target_sum.toNat).map
                   (fun l => l.map (fun n : Nat => (n : Int))))
               else Except.ok none) := by
        unfold find_k_sum_with_reuse
        rw [if_neg h1, if_neg h2]
      apply iff_of_false
      · rintro ⟨msg, hmsg⟩
        rw [main] at hmsg
        split_ifs at hmsg
      · omega

/-! ## Decision trees (`decision_tree.py`)

`DecisionNode` holds parallel lists `probabilities`/`outcomes` whose entries
are item ids or nested nodes; we embed it as a tree whose nodes carry the
zipped `(probability, outcome)` list and whose leaves are item ids.
`DecisionNode.__post_init__` checks the two lists have equal length and a
positive total, then normalizes the probabilities by their sum; every
construction site embedded below passes equal-length lists with positive
total, so only the normalization is modelled. -/

inductive DTree where
  | leaf : Int → DTree
  | node : List (ℚ × DTree) → DTree

/-- Mirror of `DecisionNode(name, probabilities, outcomes)` construction
including the `__post_init__` normalization `probabilities /= total`. -/
def mkDecisionNode (probs : List ℚ) (outs : List DTree) : DTree :=
  DTree.node ((probs.map (fun p => p / probs.sum)).zip outs)

/-- Mirror of `decision_tree.LUCK_VALUES`. -/
def LUCK_VALUES : List Int := [-9, 0, 7, 18]

/-- Mirror of `decision_tree.LUCK_WEIGHTS`. -/
def LUCK_WEIGHTS : List ℚ := [20, 50, 20, 10]

/-- Mirror of `decision_tree.build_item_choice_node`: a uniform choice
among the given ids (`ValueError` on an empty list never fires at the
embedded call sites, which always pass a non-empty list). -/
def build_item_choice_node (item_ids : List Int) : DTree :=
  mkDecisionNode (item_ids.map (fun _ => 1 / (item_ids.length : ℚ)))
    (item_ids.map DTree.leaf)

/-- Mirror of `result[item_id] = result.get(item_id, 0.0) + new_weight` on
the Python dict: update the entry in place if the key is present, append
otherwise. -/
def addWeight : List (Int × ℚ) → Int → ℚ → List (Int × ℚ)
  | [], k, w => [(k, w)]
  | (k0, w0) :: rest, k, w =>
    if k0 = k then (k0, w0 + w) :: rest else (k0, w0) :: addWeight rest k w

mutual
/-- Mirror of the recursive `_walk` in
`decision_tree.collapse_to_item_distribution` (leaf case). -/
def walk : DTree → ℚ → List (Int × ℚ) → List (Int × ℚ)
  | DTree.leaf i, w, acc => addWeight acc i w
  | DTree.node cs, w, acc => walkList cs w acc
/-- Mirror of the `zip(probabilities, outcomes)` loop of `_walk`. -/
def walkList : List (ℚ × DTree) → ℚ → List (Int × ℚ) → List (Int × ℚ)
  | [], _, acc => acc
  | (p, c) :: rest, w, acc => walkList rest w (walk c (w * p) acc)
end

/-- Mirror of `decision_tree.collapse_to_item_distribution`: start the walk
with weight `1` and an empty dict. -/
def collapse_to_item_distribution (t : DTree) : List (Int × ℚ) :=
  walk t 1 []

/-- Python `dict.get(key, default)` on an association list. -/
def dget (d : List (Int × ℚ)) (key : Int) (default : ℚ) : ℚ :=
  match d.find? (fun e => e.1 == key) with
  | some e => e.2
  | none => default

/-- Sum of the probabilities in a collapsed distribution
(`sum(result.values())`). -/
def sumValues (d : List (Int × ℚ)) : ℚ :=
  (d.map (fun e => e.2)).sum

/-! ## Item pools (`levels_and_pools.py`) -/

/-- Mirror of `levels_and_pools.compute_level_bounds_for_recipe`. -/
def compute_level_bounds_for_recipe (recipe : Recipe) (avg_permanent_level : Int)
    (random_bonus_mod : Int) : Int × Int :=
  if recipe.id = RECIPE_PRECIPITATE then (0, MAX_LEVEL_BOUND)
  else (avg_permanent_level + recipe.lvl_bonus_min + random_bonus_mod,
    avg_permanent_level + recipe.lvl_bonus_max + random_bonus_mod)

/-- One pass of the pool-building loop in
`levels_and_pools.get_permanent_item_pool_bounded`: regular items of the
requested rarity within `[current_lvl_min, lvl_max]`, excluding the given
ids. -/
def pool_filter_pass (item_db : List Item) (rarity lvl_min lvl_max : Int)
    (exclude_item_ids : List Int) : List Int :=
  (item_db.filter (fun it =>
    it.is_permanent && it.rarity == rarity && !(exclude_item_ids.contains it.id) &&
    decide (lvl_min ≤ it.required_wave_level) &&
    decide (it.required_wave_level ≤ lvl_max))).map (fun it => it.id)

/-- Mirror of the `while True` fallback loop of
`get_permanent_item_pool_bounded`: return the pool if it is non-empty or
fallback is off; otherwise lower `lvl_min` by 10 and retry.  The source's
`loop_count > 10` give-up corresponds to fuel 10 (ten retries after the
initial attempt). -/
def pool_fallback_loop (item_db : List Item) (rarity lvl_max : Int)
    (exclude_item_ids : List Int) (with_fallback : Bool) :
    Int → Nat → List Int
  | lvl_min, fuel =>
    let pool := pool_filter_pass item_db rarity lvl_min lvl_max exclude_item_ids
    if pool ≠ [] ∨ with_fallback = false then pool
    else
      match fuel with
      | 0 => []
      | Nat.succ fuel' =>
        pool_fallback_loop item_db rarity lvl_max exclude_item_ids with_fallback
          (lvl_min - 10) fuel'

/-- Mirror of `levels_and_pools.get_permanent_item_pool_bounded`. -/
def get_permanent_item_pool_bounded (item_db : List Item) (rarity lvl_min lvl_max : Int)
    (exclude_item_ids : List Int) (with_fallback : Bool) : List Int :=
  pool_fallback_loop item_db rarity lvl_max exclude_item_ids with_fallback lvl_min 10

/-- Mirror of `levels_and_pools.get_oil_and_consumable_pool`. -/
def get_oil_and_consumable_pool (item_db : List Item) (rarity : Int)
    (exclude_item_ids : List Int) : List Int :=
  (item_db.filter (fun it =>
    it.is_usable && it.rarity == rarity &&
    !(exclude_item_ids.contains it.id))).map (fun it => it.id)

/-! ## Result distribution (`results.py`) -/

/-- The candidate pool chosen for one luck outcome inside
`results.build_single_result_decision_tree`. -/
def branch_candidate_pool (recipe : Recipe) (item_db : List Item)
    (avg_permanent_level result_rarity : Int) (explicit_ingredient_ids : List Int)
    (bonus_mod : Int) : List Int :=
  let bounds := compute_level_bounds_for_recipe recipe avg_permanent_level bonus_mod
  match recipe.result_item_type with
  | ResultItemType.usable =>
    get_oil_and_consumable_pool item_db result_rarity explicit_ingredient_ids
  | ResultItemType.permanent =>
    get_permanent_item_pool_bounded item_db result_rarity bounds.1 bounds.2
      explicit_ingredient_ids true
  | ResultItemType.none => []

/-- Mirror of `results.build_single_result_decision_tree`: a luck root with
weights `LUCK_WEIGHTS` over one uniform item-choice child per luck outcome;
an empty candidate pool degenerates to the sentinel item id 0. -/
def build_single_result_decision_tree (recipe : Recipe) (item_db : List Item)
    (avg_permanent_level result_rarity : Int)
    (explicit_ingredient_ids : List Int) : DTree :=
  mkDecisionNode LUCK_WEIGHTS
    (LUCK_VALUES.map (fun bonus_mod =>
      let candidate_pool := branch_candidate_pool recipe item_db avg_permanent_level
        result_rarity explicit_ingredient_ids bonus_mod
      if candidate_pool = [] then build_item_choice_node [0]
      else build_item_choice_node candidate_pool))

/-- Mirror of `results.get_single_result_distribution`. -/
def get_single_result_distribution (recipe : Recipe) (item_db : List Item)
    (avg_permanent_level result_rarity : Int)
    (explicit_ingredient_ids : List Int) : List (Int × ℚ) :=
  collapse_to_item_distribution
    (build_single_result_decision_tree recipe item_db avg_permanent_level
      result_rarity explicit_ingredient_ids)

/-! ### Total mass and non-negativity of the collapsed distribution -/

mutual
/-- Total probability mass reaching the leaves of a tree. -/
def mass : DTree → ℚ
  | DTree.leaf _ => 1
  | DTree.node cs => massList cs
/-- Mass of a list of weighted children. -/
def massList : List (ℚ × DTree) → ℚ
  | [] => 0
  | (p, c) :: rest => p * mass c + massList rest
end

theorem addWeight_sum (acc : List (Int × ℚ)) (k : Int) (w : ℚ) :
    sumValues (addWeight acc k w) = sumValues acc + w := by
  induction acc with
  | nil => simp [addWeight, sumValues]
  | cons e rest ih =>
    obtain ⟨k0, w0⟩ := e
    by_cases h : k0 = k
    · simp [addWeight, h, sumValues]
      ring
    · simp [addWeight, h, sumValues] at ih ⊢
      rw [ih]
      ring

mutual
theorem walk_sum (t : DTree) (w : ℚ) (acc : List (Int × ℚ)) :
    sumValues (walk t w acc) = sumValues acc + w * mass t := by
  cases t with
  | leaf i => rw [walk, mass, addWeight_sum, mul_one]
  | node cs =>
    rw [walk, mass]
    exact walkList_sum cs w acc
theorem walkList_sum (cs : List (ℚ × DTree)) (w : ℚ) (acc : List (Int × ℚ)) :
    sumValues (walkList cs w acc) = sumValues acc + w * massList cs := by
  cases cs with
  | nil => rw [walkList, massList, mul_zero, add_zero]
  | cons pc rest =>
    obtain ⟨p, c⟩ := pc
    rw [walkList, massList, walkList_sum rest w (walk c (w * p) acc),
      walk_sum c (w * p) acc]
    ring
end

/-- Normalized zip of probabilities with unit-mass children has mass
`probs.sum / t`. -/
theorem massList_zip_norm (probs : List ℚ) (outs : List DTree) (t : ℚ)
    (hlen : probs.length = outs.length) (hone : ∀ c ∈ outs, mass c = 1) :
    massList ((probs.map (fun p => p / t)).zip outs) = probs.sum / t := by
  induction probs generalizing outs with
  | nil => simp [massList]
  | cons p ps ih =>
    cases outs with
    | nil => simp at hlen
    | cons c cs =>
      rw [List.map_cons, List.zip_cons_cons, massList,
        ih cs (by simpa using hlen) (fun c' hc' => hone c' (List.mem_cons_of_mem _ hc')),
        hone c (by simp), mul_one, List.sum_cons, add_div]

/-- A uniform item-choice node over a non-empty id list has total mass 1. -/
theorem mass_build_item_choice (ids : List Int) (h : ids ≠ []) :
    mass (build_item_choice_node ids) = 1 := by
  have hlen : (ids.map (fun _ => 1 / (ids.length : ℚ))).length = (ids.map DTree.leaf).length := by
    simp
  have hsum : (ids.map (fun _ => 1 / (ids.length : ℚ))).sum = 1 := by
    rw [List.map_const', List.sum_replicate, nsmul_eq_mul]
    have hn : (ids.length : ℚ) ≠ 0 := by
      simp [List.length_eq_zero]
      exact h
    field_simp
  rw [build_item_choice_node, mkDecisionNode, mass, hsum,
    massList_zip_norm _ _ _ (by simp) (by intro c hc
                                          rw [List.mem_map] at hc
                                          obtain ⟨i, _, rfl⟩ := hc
                                          rfl),
    hsum, div_one]

/-- Every luck child of the built tree (empty-pool sentinel or uniform pool
choice) has mass 1. -/
theorem mass_luck_child (recipe : Recipe) (item_db : List Item)
    (avg_permanent_level result_rarity : Int) (explicit_ingredient_ids : List Int)
    (bonus_mod : Int) :
    mass (let candidate_pool := branch_candidate_pool recipe item_db avg_permanent_level
            result_rarity explicit_ingredient_ids bonus_mod
          if candidate_pool = [] then build_item_choice_node [0]
          else build_item_choice_node candidate_pool) = 1 := by
  by_cases hp : branch_candidate_pool recipe item_db avg_permanent_level
      result_rarity explicit_ingredient_ids bonus_mod = []
  · rw [if_pos hp]
    exact mass_build_item_choice [0] (by simp)
  · rw [if_neg hp]
    exact mass_build_item_choice _ hp

/-- The built luck-then-item tree has total mass 1. -/
theorem mass_build_single_result_decision_tree (recipe : Recipe) (item_db : List Item)
    (avg_permanent_level result_rarity : Int) (explicit_ingredient_ids : List Int) :
    mass (build_single_result_decision_tree recipe item_db avg_permanent_level
      result_rarity explicit_ingredient_ids) = 1 := by
  rw [build_single_result_decision_tree, mkDecisionNode, mass,
    massList_zip_norm _ _ _ (by simp [LUCK_WEIGHTS, LUCK_VALUES]) ?hone]
  · norm_num [LUCK_WEIGHTS]
  · intro c hc
    rw [List.mem_map] at hc
    obtain ⟨bonus_mod, _, rfl⟩ := hc
    exact mass_luck_child recipe item_db avg_permanent_level result_rarity
      explicit_ingredient_ids bonus_mod

mutual
/-- All probabilities occurring in the tree are non-negative. -/
def probsNonneg : DTree → Prop
  | DTree.leaf _ => True
  | DTree.node cs => probsNonnegList cs
/-- Non-negativity for a weighted child list. -/
def probsNonnegList : List (ℚ × DTree) → Prop
  | [] => True
  | (p, c) :: rest => 0 ≤ p ∧ probsNonneg c ∧ probsNonnegList rest
end

theorem probsNonnegList_zip (probs : List ℚ) (outs : List DTree) (t : ℚ)
    (hp : ∀ p ∈ probs, 0 ≤ p) (ht : 0 ≤ t) (ho : ∀ c ∈ outs, probsNonneg c) :
    probsNonnegList ((probs.map (fun p => p / t)).zip outs) := by
  induction probs generalizing outs with
  | nil => simp [probsNonnegList]
  | cons p ps ih =>
    cases outs with
    | nil => simp [probsNonnegList]
    | cons c cs =>
      rw [List.map_cons, List.zip_cons_cons, probsNonnegList]
      exact ⟨div_nonneg (hp p (by simp)) ht, ho c (by simp),
        ih cs (fun q hq => hp q (List.mem_cons_of_mem _ hq))
          (fun c' hc' => ho c' (List.mem_cons_of_mem _ hc'))⟩

theorem probsNonneg_build_item_choice (ids : List Int) :
    probsNonneg (build_item_choice_node ids) := by
  rw [build_item_choice_node, mkDecisionNode]
  show probsNonnegList _
  apply probsNonnegList_zip
  · intro p hp
    rw [List.mem_map] at hp
    obtain ⟨i, _, rfl⟩ := hp
    positivity
  · apply List.sum_nonneg
    intro p hp
    rw [List.mem_map] at hp
    obtain ⟨i, _, rfl⟩ := hp
    positivity
  · intro c hc
    rw [List.mem_map] at hc
    obtain ⟨i, _, rfl⟩ := hc
    exact trivial

theorem probsNonneg_built_tree (recipe : Recipe) (item_db : List Item)
    (avg_permanent_level result_rarity : Int) (explicit_ingredient_ids : List Int) :
    probsNonneg (build_single_result_decision_tree recipe item_db avg_permanent_level
      result_rarity explicit_ingredient_ids) := by
  rw [build_single_result_decision_tree, mkDecisionNode]
  show probsNonnegList _
  apply probsNonnegList_zip
  · intro p hp
    fin_cases hp <;> norm_num
  · norm_num [LUCK_WEIGHTS]
  · intro c hc
    rw [List.mem_map] at hc
    obtain ⟨bonus_mod, _, rfl⟩ := hc
    by_cases hpool : branch_candidate_pool recipe item_db avg_permanent_level
        result_rarity explicit_ingredient_ids bonus_mod = []
    · simp only [hpool, if_pos]
      exact probsNonneg_build_item_choice [0]
    · simp only [hpool, if_neg, if_false]
      exact probsNonneg_build_item_choice _

theorem addWeight_nonneg (acc : List (Int × ℚ)) (k : Int) (w : ℚ)
    (hacc : ∀ e ∈ acc, 0 ≤ e.2) (hw : 0 ≤ w) :
    ∀ e ∈ addWeight acc k w, 0 ≤ e.2 := by
  induction acc with
  | nil =>
    intro e he
    simp only [addWeight, List.mem_singleton] at he
    subst he
    exact hw
  | cons e0 rest ih =>
    obtain ⟨k0, w0⟩ := e0
    intro e he
    by_cases h : k0 = k
    · rw [addWeight, if_pos h] at he
      rcases List.mem_cons.1 he with rfl | he
      · exact add_nonneg (hacc (k0, w0) (by simp)) hw
      · exact hacc e (List.mem_cons_of_mem _ he)
    · rw [addWeight, if_neg h] at he
      rcases List.mem_cons.1 he with rfl | he
      · exact hacc (k0, w0) (by simp)
      · exact ih (fun e' he' => hacc e' (List.mem_cons_of_mem _ he')) e he

mutual
theorem walk_nonneg (t : DTree) (w : ℚ) (acc : List (Int × ℚ))
    (ht : probsNonneg t) (hw : 0 ≤ w) (hacc : ∀ e ∈ acc, 0 ≤ e.2) :
    ∀ e ∈ walk t w acc, 0 ≤ e.2 := by
  cases t with
  | leaf i =>
    rw [walk]
    exact addWeight_nonneg acc i w hacc hw
  | node cs =>
    rw [walk]
    exact walkList_nonneg cs w acc ht hw hacc
theorem walkList_nonneg (cs : List (ℚ × DTree)) (w : ℚ) (acc : List (Int × ℚ))
    (hcs : probsNonnegList cs) (hw : 0 ≤ w) (hacc : ∀ e ∈ acc, 0 ≤ e.2) :
    ∀ e ∈ walkList cs w acc, 0 ≤ e.2 := by
  cases cs with
  | nil =>
    rw [walkList]
    exact hacc
  | cons pc rest =>
    obtain ⟨p, c⟩ := pc
    rw [walkList]
    obtain ⟨hp, hc, hrest⟩ := hcs
    exact walkList_nonneg rest w _ hrest hw
      (walk_nonneg c (w * p) acc hc (mul_nonneg hw hp) hacc)
end

/-- C1: for every recipe, item database, average permanent level, result
rarity and explicit ingredient list, the collapsed single-result
distribution has non-negative probabilities and sums to 1 within the
1e-6 tolerance (it sums to exactly 1 in exact arithmetic). -/
theorem C1_distribution_nonneg_and_sums_to_one (recipe : Recipe) (item_db : List Item)
    (avg_permanent_level result_rarity : Int) (explicit_ingredient_ids : List Int) :
    (∀ e ∈ get_single_result_distribution recipe item_db avg_permanent_level
        result_rarity explicit_ingredient_ids, 0 ≤ e.2)
    ∧ |sumValues (get_single_result_distribution recipe item_db avg_permanent_level
        result_rarity explicit_ingredient_ids) - 1| ≤ 1 / 1000000 := by
  constructor
  · apply walk_nonneg
    · exact probsNonneg_built_tree recipe item_db avg_permanent_level result_rarity
        explicit_ingredient_ids
    · norm_num
    · intro e he
      exact absurd he (List.not_mem_nil e)
  · rw [get_single_result_distribution, collapse_to_item_distribution, walk_sum,
      mass_build_single_result_decision_tree]
    norm_num [sumValues]

/-! ### Support of the collapsed distribution (for the ingredient-exclusion
and sentinel properties) -/

mutual
/-- `leafIn t j` holds when `j` labels some leaf of `t`. -/
def leafIn : DTree → Int → Prop
  | DTree.leaf i, j => i = j
  | DTree.node cs, j => leafInList cs j
/-- Leaf membership over a weighted child list. -/
def leafInList : List (ℚ × DTree) → Int → Prop
  | [], _ => False
  | (_, c) :: rest, j => leafIn c j ∨ leafInList rest j
end

theorem addWeight_keys (acc : List (Int × ℚ)) (k : Int) (w : ℚ) :
    ∀ e ∈ addWeight acc k w, (∃ e' ∈ acc, e'.1 = e.1) ∨ e.1 = k := by
  induction acc with
  | nil =>
    intro e he
    simp only [addWeight, List.mem_singleton] at he
    subst he
    exact Or.inr rfl
  | cons e0 rest ih =>
    obtain ⟨k0, w0⟩ := e0
    intro e he
    by_cases h : k0 = k
    · rw [addWeight, if_pos h] at he
      rcases List.mem_cons.1 he with rfl | he
      · exact Or.inl ⟨(k0, w0), by simp⟩
      · exact Or.inl ⟨e, List.mem_cons_of_mem _ he, rfl⟩
    · rw [addWeight, if_neg h] at he
      rcases List.mem_cons.1 he with rfl | he
      · exact Or.inl ⟨(k0, w0), by simp⟩
      · rcases ih e he with ⟨e', he', heq⟩ | heq
        · exact Or.inl ⟨e', List.mem_cons_of_mem _ he', heq⟩
        · exact Or.inr heq

mutual
theorem walk_keys (t : DTree) (w : ℚ) (acc : List (Int × ℚ)) :
    ∀ e ∈ walk t w acc, (∃ e' ∈ acc, e'.1 = e.1) ∨ leafIn t e.1 := by
  cases t with
  | leaf i =>
    intro e he
    rw [walk] at he
    rcases addWeight_keys acc i w e he with h | h
    · exact Or.inl h
    · exact Or.inr (by rw [leafIn]; exact h.symm)
  | node cs =>
    intro e he
    rw [walk] at he
    rcases walkList_keys cs w acc e he with h | h
    · exact Or.inl h
    · exact Or.inr (by rw [leafIn]; exact h)
theorem walkList_keys (cs : List (ℚ × DTree)) (w : ℚ) (acc : List (Int × ℚ)) :
    ∀ e ∈ walkList cs w acc, (∃ e' ∈ acc, e'.1 = e.1) ∨ leafInList cs e.1 := by
  cases cs with
  | nil =>
    intro e he
    rw [walkList] at he
    exact Or.inl ⟨e, he, rfl⟩
  | cons pc rest =>
    obtain ⟨p, c⟩ := pc
    intro e he
    rw [walkList] at he
    rcases walkList_keys rest w _ e he with ⟨e', he', heq⟩ | h
    · rcases walk_keys c (w * p) acc e' he' with ⟨e'', he'', heq'⟩ | h
      · exact Or.inl ⟨e'', he'', heq'.trans heq⟩
      · exact Or.inr (by rw [leafInList]; exact Or.inl (heq ▸ h))
    · exact Or.inr (by rw [leafInList]; exact Or.inr h)
end

theorem leafInList_exists (L : List (ℚ × DTree)) (j : Int) (h : leafInList L j) :
    ∃ pc ∈ L, leafIn pc.2 j := by
  induction L with
  | nil => exact absurd h (by rw [leafInList]; exact not_false)
  | cons pc rest ih =>
    obtain ⟨p, c⟩ := pc
    rw [leafInList] at h
    rcases h with h | h
    · exact ⟨(p, c), by simp, h⟩
    · obtain ⟨pc', hpc', hleaf⟩ := ih h
      exact ⟨pc', List.mem_cons_of_mem _ hpc', hleaf⟩

theorem leafIn_mkDecisionNode (probs : List ℚ) (outs : List DTree) (j : Int)
    (h : leafIn (mkDecisionNode probs outs) j) : ∃ c ∈ outs, leafIn c j := by
  rw [mkDecisionNode, leafIn] at h
  obtain ⟨pc, hpc, hleaf⟩ := leafInList_exists _ _ h
  obtain ⟨p, c⟩ := pc
  exact ⟨c, (List.of_mem_zip hpc).2, hleaf⟩

theorem leafIn_build_item_choice (ids : List Int) (j : Int)
    (h : leafIn (build_item_choice_node ids) j) : j ∈ ids := by
  obtain ⟨c, hc, hleaf⟩ := leafIn_mkDecisionNode _ _ _ h
  rw [List.mem_map] at hc
  obtain ⟨i, hi, rfl⟩ := hc
  rw [leafIn] at hleaf
  exact hleaf ▸ hi

theorem pool_filter_pass_not_excluded (item_db : List Item)
    (rarity lvl_min lvl_max : Int) (exclude_item_ids : List Int) (id : Int)
    (h : id ∈ pool_filter_pass item_db rarity lvl_min lvl_max exclude_item_ids) :
    id ∉ exclude_item_ids := by
  rw [pool_filter_pass, List.mem_map] at h
  obtain ⟨it, hit, rfl⟩ := h
  rw [List.mem_filter] at hit
  have := hit.2
  simp only [Bool.and_eq_true, Bool.not_eq_true'] at this
  intro hmem
  have hc : exclude_item_ids.contains it.id = true := by
    simpa using hmem
  rw [this.1.1.2] at hc
  exact Bool.noConfusion hc

theorem pool_fallback_loop_not_excluded (item_db : List Item)
    (rarity lvl_max : Int) (exclude_item_ids : List Int) (with_fallback : Bool) :
    ∀ (fuel : Nat) (lvl_min : Int) (id : Int),
      id ∈ pool_fallback_loop item_db rarity lvl_max exclude_item_ids with_fallback
        lvl_min fuel →
      id ∉ exclude_item_ids := by
  intro fuel
  induction fuel with
  | zero =>
    intro lvl_min id h
    rw [pool_fallback_loop] at h
    split_ifs at h with hcond
    · exact pool_filter_pass_not_excluded _ _ _ _ _ _ h
    · exact absurd h (List.not_mem_nil id)
  | succ fuel' ih =>
    intro lvl_min id h
    rw [pool_fallback_loop] at h
    split_ifs at h with hcond
    · exact pool_filter_pass_not_excluded _ _ _ _ _ _ h
    · exact ih (lvl_min - 10) id h

theorem get_oil_pool_not_excluded (item_db : List Item) (rarity : Int)
    (exclude_item_ids : List Int) (id : Int)
    (h : id ∈ get_oil_and_consumable_pool item_db rarity exclude_item_ids) :
    id ∉ exclude_item_ids := by
  rw [get_oil_and_consumable_pool, List.mem_map] at h
  obtain ⟨it, hit, rfl⟩ := h
  rw [List.mem_filter] at hit
  have := hit.2
  simp only [Bool.and_eq_true, Bool.not_eq_true'] at this
  intro hmem
  have hc : exclude_item_ids.contains it.id = true := by
    simpa using hmem
  rw [this.2] at hc
  exact Bool.noConfusion hc

theorem branch_candidate_pool_not_excluded (recipe : Recipe) (item_db : List Item)
    (avg_permanent_level result_rarity : Int) (explicit_ingredient_ids : List Int)
    (bonus_mod : Int) (id : Int)
    (h : id ∈ branch_candidate_pool recipe item_db avg_permanent_level result_rarity
      explicit_ingredient_ids bonus_mod) :
    id ∉ explicit_ingredient_ids := by
  rw [branch_candidate_pool] at h
  rcases hres : recipe.result_item_type with _ | _ | _ <;> rw [hres] at h
  · exact pool_fallback_loop_not_excluded _ _ _ _ _ _ _ _ h
  · exact get_oil_pool_not_excluded _ _ _ _ h
  · exact absurd h (List.not_mem_nil id)

theorem dget_pos_mem (d : List (Int × ℚ)) (id : Int) (h : 0 < dget d id 0) :
    ∃ e ∈ d, e.1 = id := by
  rw [dget] at h
  cases hf : d.find? (fun e => e.1 == id) with
  | none =>
    rw [hf] at h
    exact absurd h (lt_irrefl 0)
  | some e =>
    have hm := List.mem_of_find?_eq_some hf
    have hp := List.find?_some hf
    simp only [beq_iff_eq] at hp
    exact ⟨e, hm, hp⟩

theorem dget_addWeight (acc : List (Int × ℚ)) (k : Int) (w : ℚ) (id : Int) :
    dget (addWeight acc k w) id 0 =
      dget acc id 0 + (if k = id then w else 0) := by
  induction acc with
  | nil =>
    by_cases h : k = id <;> simp [addWeight, dget, h]
  | cons e0 rest ih =>
    obtain ⟨k0, w0⟩ := e0
    by_cases h : k0 = k
    · subst h
      by_cases h2 : k0 = id
      · subst h2
        simp [addWeight, dget]
      · simp [addWeight, dget, h2]
    · by_cases h2 : k0 = id
      · subst h2
        have hk : ¬ k = k0 := fun hcontra => h hcontra.symm
        simp [addWeight, dget, h, hk]
      · simp only [addWeight, if_neg h, dget, List.find?_cons,
          show ((k0, w0).1 == id) = false by simpa using h2]
        exact ih

mutual
theorem walk_dget_mono (t : DTree) (w : ℚ) (acc : List (Int × ℚ)) (id : Int)
    (ht : probsNonneg t) (hw : 0 ≤ w) :
    dget acc id 0 ≤ dget (walk t w acc) id 0 := by
  cases t with
  | leaf i =>
    rw [walk, dget_addWeight]
    by_cases h : i = id
    · rw [if_pos h]
      linarith
    · rw [if_neg h]
      simp
  | node cs =>
    rw [walk]
    exact walkList_dget_mono cs w acc id ht hw
theorem walkList_dget_mono (cs : List (ℚ × DTree)) (w : ℚ) (acc : List (Int × ℚ))
    (id : Int) (hcs : probsNonnegList cs) (hw : 0 ≤ w) :
    dget acc id 0 ≤ dget (walkList cs w acc) id 0 := by
  cases cs with
  | nil =>
    rw [walkList]
  | cons pc rest =>
    obtain ⟨p, c⟩ := pc
    obtain ⟨hp, hc, hrest⟩ := hcs
    rw [walkList]
    exact le_trans (walk_dget_mono c (w * p) acc id hc (mul_nonneg hw hp))
      (walkList_dget_mono rest w _ id hrest hw)
end

/-- The degenerate empty-pool child is a single certain choice of the
sentinel id 0. -/
theorem build_item_choice_single :
    build_item_choice_node [0] = DTree.node [(1, DTree.leaf 0)] := by
  rw [build_item_choice_node, mkDecisionNode]
  norm_num

/-- Walking the sentinel child adds exactly the branch weight to key 0. -/
theorem walk_empty_choice_dget (w : ℚ) (acc : List (Int × ℚ)) :
    dget (walk (build_item_choice_node [0]) w acc) 0 0 = dget acc 0 0 + w := by
  rw [build_item_choice_single, walk, walkList, walkList, walk, dget_addWeight]
  simp

/-- If some child of a weighted list is the sentinel choice with weight `p`,
walking the list raises the probability of key 0 by at least `w * p`. -/
theorem walkList_dget_bump (cs : List (ℚ × DTree)) (w : ℚ) (acc : List (Int × ℚ))
    (p : ℚ) (hmem : (p, build_item_choice_node [0]) ∈ cs)
    (hcs : probsNonnegList cs) (hw : 0 ≤ w) :
    dget acc 0 0 + w * p ≤ dget (walkList cs w acc) 0 0 := by
  induction cs generalizing acc with
  | nil => exact absurd hmem (List.not_mem_nil _)
  | cons pc rest ih =>
    obtain ⟨q, c⟩ := pc
    obtain ⟨hq, hc, hrest⟩ := hcs
    rw [walkList]
    rcases List.mem_cons.1 hmem with heq | hmem'
    · injection heq with h1 h2
      subst h1
      subst h2
      have hbump := walk_empty_choice_dget (w * p) acc
      calc dget acc 0 0 + w * p = dget (walk (build_item_choice_node [0]) (w * p) acc) 0 0 := by
            rw [hbump]
        _ ≤ dget (walkList rest w (walk (build_item_choice_node [0]) (w * p) acc)) 0 0 :=
            walkList_dget_mono rest w _ 0 hrest hw
    · calc dget acc 0 0 + w * p
          ≤ dget (walk c (w * q) acc) 0 0 + w * p := by
            have := walk_dget_mono c (w * q) acc 0 hc (mul_nonneg hw hq)
            linarith
        _ ≤ dget (walkList rest w (walk c (w * q) acc)) 0 0 := ih _ hmem' hrest

/-- One luck branch's child node: the uniform choice over the branch's
candidate pool, degenerating to the sentinel choice `[0]` when empty. -/
def luckChild (recipe : Recipe) (item_db : List Item)
    (avg_permanent_level result_rarity : Int) (explicit_ingredient_ids : List Int)
    (bonus_mod : Int) : DTree :=
  if branch_candidate_pool recipe item_db avg_permanent_level result_rarity
      explicit_ingredient_ids bonus_mod = [] then
    build_item_choice_node [0]
  else
    build_item_choice_node (branch_candidate_pool recipe item_db avg_permanent_level
      result_rarity explicit_ingredient_ids bonus_mod)

/-- The built tree written out with its four luck branches and normalized
luck probabilities (`20/50/20/10` out of 100). -/
theorem built_tree_eq (recipe : Recipe) (item_db : List Item)
    (avg_permanent_level result_rarity : Int) (explicit_ingredient_ids : List Int) :
    build_single_result_decision_tree recipe item_db avg_permanent_level
        result_rarity explicit_ingredient_ids =
      DTree.node
        [((1/5 : ℚ), luckChild recipe item_db avg_permanent_level result_rarity
            explicit_ingredient_ids (-9)),
         ((1/2 : ℚ), luckChild recipe item_db avg_permanent_level result_rarity
            explicit_ingredient_ids 0),
         ((1/5 : ℚ), luckChild recipe item_db avg_permanent_level result_rarity
            explicit_ingredient_ids 7),
         ((1/10 : ℚ), luckChild recipe item_db avg_permanent_level result_rarity
            explicit_ingredient_ids 18)] := by
  rw [build_single_result_decision_tree, mkDecisionNode]
  norm_num [LUCK_WEIGHTS, LUCK_VALUES, luckChild]

theorem probsNonneg_luckChild (recipe : Recipe) (item_db : List Item)
    (avg_permanent_level result_rarity : Int) (explicit_ingredient_ids : List Int)
    (bonus_mod : Int) :
    probsNonneg (luckChild recipe item_db avg_permanent_level result_rarity
      explicit_ingredient_ids bonus_mod) := by
  rw [luckChild]
  split_ifs
  · exact probsNonneg_build_item_choice [0]
  · exact probsNonneg_build_item_choice _

theorem probsNonnegList_built_list (recipe : Recipe) (item_db : List Item)
    (avg_permanent_level result_rarity : Int) (explicit_ingredient_ids : List Int) :
    probsNonnegList
      [((1/5 : ℚ), luckChild recipe item_db avg_permanent_level result_rarity
          explicit_ingredient_ids (-9)),
       ((1/2 : ℚ), luckChild recipe item_db avg_permanent_level result_rarity
          explicit_ingredient_ids 0),
       ((1/5 : ℚ), luckChild recipe item_db avg_permanent_level result_rarity
          explicit_ingredient_ids 7),
       ((1/10 : ℚ), luckChild recipe item_db avg_permanent_level result_rarity
          explicit_ingredient_ids 18)] := by
  refine ⟨by norm_num, probsNonneg_luckChild _ _ _ _ _ _,
    by norm_num, probsNonneg_luckChild _ _ _ _ _ _,
    by norm_num, probsNonneg_luckChild _ _ _ _ _ _,
    by norm_num, probsNonneg_luckChild _ _ _ _ _ _, trivial⟩

/-- C7 (amended): every item id carrying positive probability in the
single-result distribution either is not one of the explicit ingredient ids
or is the sentinel id 0 (the sentinel is not drawn from any pool, so it can
coincide with an ingredient id); and whenever a luck branch's candidate pool
is empty even after the downward-widening fallback, the sentinel id 0
receives at least that branch's full luck probability. -/
theorem C7_support_exclusion_and_sentinel (recipe : Recipe) (item_db : List Item)
    (avg_permanent_level result_rarity : Int) (explicit_ingredient_ids : List Int) :
    (∀ id : Int,
      0 < dget (get_single_result_distribution recipe item_db avg_permanent_level
          result_rarity explicit_ingredient_ids) id 0 →
      id ∉ explicit_ingredient_ids ∨ id = 0)
    ∧ (∀ i : Nat, i < 4 →
        branch_candidate_pool recipe item_db avg_permanent_level result_rarity
          explicit_ingredient_ids (LUCK_VALUES.getD i 0) = [] →
        LUCK_WEIGHTS.getD i 0 / 100 ≤
          dget (get_single_result_distribution recipe item_db avg_permanent_level
            result_rarity explicit_ingredient_ids) 0 0) := by
  constructor
  · intro id hpos
    obtain ⟨e, he, heq⟩ := dget_pos_mem _ _ hpos
    rw [get_single_result_distribution, collapse_to_item_distribution] at he
    rcases walk_keys _ 1 [] e he with ⟨e', he', _⟩ | hleaf
    · exact absurd he' (List.not_mem_nil e')
    · rw [heq] at hleaf
      rw [build_single_result_decision_tree] at hleaf
      obtain ⟨c, hc, hcleaf⟩ := leafIn_mkDecisionNode _ _ _ hleaf
      rw [List.mem_map] at hc
      obtain ⟨bonus_mod, _, rfl⟩ := hc
      by_cases hpool : branch_candidate_pool recipe item_db avg_permanent_level
          result_rarity explicit_ingredient_ids bonus_mod = []
      · simp only [hpool, if_pos] at hcleaf
        have h0 := leafIn_build_item_choice [0] id hcleaf
        exact Or.inr (by simpa using h0)
      · simp only [hpool, if_neg, if_false] at hcleaf
        have hmem := leafIn_build_item_choice _ id hcleaf
        exact Or.inl (branch_candidate_pool_not_excluded _ _ _ _ _ _ _ hmem)
  · intro i hi hpool
    rw [get_single_result_distribution, collapse_to_item_distribution,
      built_tree_eq, walk]
    have hzero : dget ([] : List (Int × ℚ)) 0 0 = 0 := rfl
    interval_cases i
    · have hp9 : branch_candidate_pool recipe item_db avg_permanent_level result_rarity
          explicit_ingredient_ids (-9) = [] := by
        simpa [LUCK_VALUES] using hpool
      have hchild : luckChild recipe item_db avg_permanent_level result_rarity
          explicit_ingredient_ids (-9) = build_item_choice_node [0] := by
        rw [luckChild, if_pos hp9]
      have hm : ((1/5 : ℚ), build_item_choice_node [0]) ∈
          [((1/5 : ℚ), luckChild recipe item_db avg_permanent_level result_rarity
              explicit_ingredient_ids (-9)),
           ((1/2 : ℚ), luckChild recipe item_db avg_permanent_level result_rarity
              explicit_ingredient_ids 0),
           ((1/5 : ℚ), luckChild recipe item_db avg_permanent_level result_rarity
              explicit_ingredient_ids 7),
           ((1/10 : ℚ), luckChild recipe item_db avg_permanent_level result_rarity
              explicit_ingredient_ids 18)] := by
        rw [← hchild]
        simp
      have hb := walkList_dget_bump _ 1 [] (1/5) hm
        (probsNonnegList_built_list recipe item_db avg_permanent_level result_rarity
          explicit_ingredient_ids) (by norm_num)
      rw [hzero] at hb
      have hw : (LUCK_WEIGHTS.getD 0 0 : ℚ) / 100 = 1/5 := by norm_num [LUCK_WEIGHTS]
      rw [hw]
      linarith
    · have hp0 : branch_candidate_pool recipe item_db avg_permanent_level result_rarity
          explicit_ingredient_ids 0 = [] := by
        simpa [LUCK_VALUES] using hpool
      have hchild : luckChild recipe item_db avg_permanent_level result_rarity
          explicit_ingredient_ids 0 = build_item_choice_node [0] := by
        rw [luckChild, if_pos hp0]
      have hm : ((1/2 : ℚ), build_item_choice_node [0]) ∈
          [((1/5 : ℚ), luckChild recipe item_db avg_permanent_level result_rarity
              explicit_ingredient_ids (-9)),
           ((1/2 : ℚ), luckChild recipe item_db avg_permanent_level result_rarity
              explicit_ingredient_ids 0),
           ((1/5 : ℚ), luckChild recipe item_db avg_permanent_level result_rarity
              explicit_ingredient_ids 7),
           ((1/10 : ℚ), luckChild recipe item_db avg_permanent_level result_rarity
              explicit_ingredient_ids 18)] := by
        rw [← hchild]
        simp
      have hb := walkList_dget_bump _ 1 [] (1/2) hm
        (probsNonnegList_built_list recipe item_db avg_permanent_level result_rarity
          explicit_ingredient_ids) (by norm_num)
      rw [hzero] at hb
      have hw : (LUCK_WEIGHTS.getD 1 0 : ℚ) / 100 = 1/2 := by norm_num [LUCK_WEIGHTS]
      rw [hw]
      linarith
    · have hp7 : branch_candidate_pool recipe item_db avg_permanent_level result_rarity
          explicit_ingredient_ids 7 = [] := by
        simpa [LUCK_VALUES] using hpool
      have hchild : luckChild recipe item_db avg_permanent_level result_rarity
          explicit_ingredient_ids 7 = build_item_choice_node [0] := by
        rw [luckChild, if_pos hp7]
      have hm : ((1/5 : ℚ), build_item_choice_node [0]) ∈
          [((1/5 : ℚ), luckChild recipe item_db avg_permanent_level result_rarity
              explicit_ingredient_ids (-9)),
           ((1/2 : ℚ), luckChild recipe item_db avg_permanent_level result_rarity
              explicit_ingredient_ids 0),
           ((1/5 : ℚ), luckChild recipe item_db avg_permanent_level result_rarity
              explicit_ingredient_ids 7),
           ((1/10 : ℚ), luckChild recipe item_db avg_permanent_level result_rarity
              explicit_ingredient_ids 18)] := by
        rw [← hchild]
        simp
      have hb := walkList_dget_bump _ 1 [] (1/5) hm
        (probsNonnegList_built_list recipe item_db avg_permanent_level result_rarity
          explicit_ingredient_ids) (by norm_num)
      rw [hzero] at hb
      have hw : (LUCK_WEIGHTS.getD 2 0 : ℚ) / 100 = 1/5 := by norm_num [LUCK_WEIGHTS]
      rw [hw]
      linarith
    · have hp18 : branch_candidate_pool recipe item_db avg_permanent_level result_rarity
          explicit_ingredient_ids 18 = [] := by
        simpa [LUCK_VALUES] using hpool
      have hchild : luckChild recipe item_db avg_permanent_level result_rarity
          explicit_ingredient_ids 18 = build_item_choice_node [0] := by
        rw [luckChild, if_pos hp18]
      have hm : ((1/10 : ℚ), build_item_choice_node [0]) ∈
          [((1/5 : ℚ), luckChild recipe item_db avg_permanent_level result_rarity
              explicit_ingredient_ids (-9)),
           ((1/2 : ℚ), luckChild recipe item_db avg_permanent_level result_rarity
              explicit_ingredient_ids 0),
           ((1/5 : ℚ), luckChild recipe item_db avg_permanent_level result_rarity
              explicit_ingredient_ids 7),
           ((1/10 : ℚ), luckChild recipe item_db avg_permanent_level result_rarity
              explicit_ingredient_ids 18)] := by
        rw [← hchild]
        simp
      have hb := walkList_dget_bump _ 1 [] (1/10) hm
        (probsNonnegList_built_list recipe item_db avg_permanent_level result_rarity
          explicit_ingredient_ids) (by norm_num)
      rw [hzero] at hb
      have hw : (LUCK_WEIGHTS.getD 3 0 : ℚ) / 100 = 1/10 := by norm_num [LUCK_WEIGHTS]
      rw [hw]
      linarith

/-- When the level-(-9) luck branch's pool is empty, the sentinel id 0 gets
at least probability 1/5 in the collapsed distribution.  (Shared by the C7
counterexample and witness below.) -/
theorem dget_sentinel_pos_of_first_branch_empty (recipe : Recipe) (item_db : List Item)
    (avg_permanent_level result_rarity : Int) (explicit_ingredient_ids : List Int)
    (h : branch_candidate_pool recipe item_db avg_permanent_level result_rarity
      explicit_ingredient_ids (-9) = []) :
    0 < dget (get_single_result_distribution recipe item_db avg_permanent_level
      result_rarity explicit_ingredient_ids) 0 0 := by
  rw [get_single_result_distribution, collapse_to_item_distribution,
    built_tree_eq, walk]
  have hzero : dget ([] : List (Int × ℚ)) 0 0 = 0 := rfl
  have hchild : luckChild recipe item_db avg_permanent_level result_rarity
      explicit_ingredient_ids (-9) = build_item_choice_node [0] := by
    rw [luckChild, if_pos h]
  have hm : ((1/5 : ℚ), build_item_choice_node [0]) ∈
      [((1/5 : ℚ), luckChild recipe item_db avg_permanent_level result_rarity
          explicit_ingredient_ids (-9)),
       ((1/2 : ℚ), luckChild recipe item_db avg_permanent_level result_rarity
          explicit_ingredient_ids 0),
       ((1/5 : ℚ), luckChild recipe item_db avg_permanent_level result_rarity
          explicit_ingredient_ids 7),
       ((1/10 : ℚ), luckChild recipe item_db avg_permanent_level result_rarity
          explicit_ingredient_ids 18)] := by
    rw [← hchild]
    simp
  have hb := walkList_dget_bump _ 1 [] (1/5) hm
    (probsNonnegList_built_list recipe item_db avg_permanent_level result_rarity
      explicit_ingredient_ids) (by norm_num)
  rw [hzero] at hb
  linarith

/-- C7 (counterexample): with an empty item database and the sentinel id 0
passed as an explicit ingredient, the sentinel appears in the distribution
with probability 1 even though it is a member of the ingredient list — so
"every item id with positive probability is not a member of S" fails as
stated. -/
theorem C7_counterexample_sentinel_is_ingredient :
    (0 : Int) ∈ ([0] : List Int) ∧
      0 < dget (get_single_result_distribution
        ⟨3, 2, 0, ResultItemType.permanent, 1, 0, 0, 0⟩ [] 0 0 [0]) 0 0 := by
  constructor
  · decide
  · exact dget_sentinel_pos_of_first_branch_empty _ _ _ _ _ (by decide)

/-- C7 witness: concrete application with an empty database and ingredient
list `[5]` — every pool is empty, the sentinel takes all the mass, and each
part of the amended theorem is discharged at this input. -/
theorem C7_support_exclusion_and_sentinel_witness :
    (0 < dget (get_single_result_distribution
        ⟨3, 2, 0, ResultItemType.permanent, 1, 0, 0, 0⟩ [] 0 0 [5]) 0 0 ∧
      ((0 : Int) ∉ ([5] : List Int) ∨ (0 : Int) = 0)) ∧
    (branch_candidate_pool ⟨3, 2, 0, ResultItemType.permanent, 1, 0, 0, 0⟩ [] 0 0 [5]
        (LUCK_VALUES.getD 0 0) = [] ∧
      LUCK_WEIGHTS.getD 0 0 / 100 ≤
        dget (get_single_result_distribution
          ⟨3, 2, 0, ResultItemType.permanent, 1, 0, 0, 0⟩ [] 0 0 [5]) 0 0) := by
  have hpos : 0 < dget (get_single_result_distribution
      ⟨3, 2, 0, ResultItemType.permanent, 1, 0, 0, 0⟩ [] 0 0 [5]) 0 0 :=
    dget_sentinel_pos_of_first_branch_empty _ _ _ _ _ (by decide)
  constructor
  · exact ⟨hpos,
      (C7_support_exclusion_and_sentinel
        ⟨3, 2, 0, ResultItemType.permanent, 1, 0, 0, 0⟩ [] 0 0 [5]).1 0 hpos⟩
  · exact ⟨by decide,
      (C7_support_exclusion_and_sentinel
        ⟨3, 2, 0, ResultItemType.permanent, 1, 0, 0, 0⟩ [] 0 0 [5]).2 0 (by norm_num)
        (by decide)⟩

/-! ## Item values and the state-local value function
(`constants.ItemValue`, `optimizer._make_value_func`) -/

/-- Mirror of `constants.ItemValue` restricted to the fields read by
`_make_value_func`: phase-indexed usage/transmute dicts, the optional usage
cap `(max_count, overflow_value)` and the optional family membership
`(family_id, tier)` (the third "extra params" component of `FAMILY_INFO` is
never read by the embedded code). -/
structure ItemValue where
  item_id : Int
  usage_value : List (Int × ℚ)
  transmute_value : List (Int × ℚ)
  usage_cap : Option (Int × ℚ)
  family_info : Option (Int × Int)

/-- Mirror of `constants.FamilyRule`. -/
structure FamilyRule where
  downward_impacts : List (Int × List (Int × ℚ))

/-- Python `dict.get(key)` (returning `None` when absent) on an association
list. -/
def alist_get? {α : Type} (d : List (Int × α)) (key : Int) : Option α :=
  (d.find? (fun e => e.1 == key)).map (fun e => e.2)

/-- Mirror of the inner closure `V(item_id, consume_count)` of
`optimizer._make_value_func` in the inventory-aware branch
(`state_inventory is not None`).  The module-level registries
`FAMILY_RULES` and `get_item_family_info` are passed explicitly
(`family_rules`, `family_info_of`), and the `item_values` dict is a total
function (the engine populates an entry for every item id it queries). -/
def make_value_func_V (item_values : Int → ItemValue) (phase : Int)
    (state_inventory : List (Int × Int)) (family_rules : List (Int × FamilyRule))
    (family_info_of : Int → Option (Int × Int))
    (item_id : Int) (consume_count : Int) : ℚ :=
  let iv := item_values item_id
  let base_u := dget iv.usage_value phase 0
  let t := dget iv.transmute_value phase 0
  match iv.usage_cap with
  | none => max base_u t
  | some (max_count, overflow_val) =>
    let count := ((state_inventory.find? (fun e => e.1 == item_id)).map
      (fun e => e.2)).getD 0
    let shadow_count : ℚ :=
      match iv.family_info with
      | none => 0
      | some (fam_id, tier) =>
        (state_inventory.map (fun oc =>
          if oc.2 ≤ 0 then 0
          else
            match family_info_of oc.1 with
            | none => 0
            | some (other_fam_id, other_tier) =>
              if other_fam_id = fam_id ∧ tier < other_tier then
                match alist_get? family_rules fam_id with
                | none => 0
                | some rule =>
                  match alist_get? rule.downward_impacts (other_tier - tier) with
                  | none => 0
                  | some impact_dict =>
                    (oc.2 : ℚ) * (dget impact_dict (-1) 0 + dget impact_dict phase 0)
              else 0)).sum
    let effective_count : ℚ := ((max 0 (count - consume_count) : Int) : ℚ) + shadow_count
    let u := if (max_count : ℚ) ≤ effective_count then overflow_val else base_u
    max u t

/-- C4 (counterexample): with transmute value 0 at the phase and a negative
usage value `u = -1` below the cap, the function returns
`max(u, 0) = 0`, not `u` — the claimed dichotomy "overflow if capped, `u`
otherwise" fails for negative usage values because the returned value is
floored by the transmute value 0. -/
theorem C4_counterexample_negative_usage :
    make_value_func_V (fun _ => ⟨7, [(0, -1)], [], some (5, 2), none⟩)
        0 [] [] (fun _ => none) 7 0 = 0 ∧ (0 : ℚ) ≠ -1 := by
  constructor
  · norm_num [make_value_func_V, dget]
  · norm_num

/-- C4 (amended): in the state-local value function, for an item with usage
cap `(max_count, overflow_value)`, usage value `u` and transmute value 0 at
the phase, held count `c` and no family membership,
`value_func(item, consume_count = n)` returns `max(overflow_value, 0)` if
`max(0, c − n) ≥ max_count` and `max(u, 0)` otherwise (the transmute value 0
floors the result); in particular with cap `(2, 1.0)`, `u = 10.0` and
`c = 3`, consuming the 1st copy reads 1.0 (cap-collapsed) while consuming
the 2nd and 3rd read 10.0. -/
theorem C4_value_func_cap_characterization (item_values : Int → ItemValue)
    (phase : Int) (inventory : List (Int × Int))
    (family_rules : List (Int × FamilyRule))
    (family_info_of : Int → Option (Int × Int)) (item_id : Int)
    (max_count : Int) (overflow_val u : ℚ) (c n : Int)
    (hcap : (item_values item_id).usage_cap = some (max_count, overflow_val))
    (hfam : (item_values item_id).family_info = none)
    (hu : dget (item_values item_id).usage_value phase 0 = u)
    (ht : dget (item_values item_id).transmute_value phase 0 = 0)
    (hcount : ((inventory.find? (fun e => e.1 == item_id)).map (fun e => e.2)).getD 0 = c) :
    (make_value_func_V item_values phase inventory family_rules family_info_of
        item_id n =
      if max_count ≤ max 0 (c - n) then max overflow_val 0 else max u 0)
    ∧ (make_value_func_V (fun _ => ⟨1, [(0, 10)], [], some (2, 1), none⟩)
          0 [(1, 3)] [] (fun _ => none) 1 1 = 1
        ∧ make_value_func_V (fun _ => ⟨1, [(0, 10)], [], some (2, 1), none⟩)
            0 [(1, 3)] [] (fun _ => none) 1 2 = 10
        ∧ make_value_func_V (fun _ => ⟨1, [(0, 10)], [], some (2, 1), none⟩)
            0 [(1, 3)] [] (fun _ => none) 1 3 = 10) := by
  constructor
  · rw [make_value_func_V]
    simp only [hcap, hfam, hu, ht, hcount]
    have hcast : ((max 0 (c - n) : Int) : ℚ) + 0 = ((max 0 (c - n) : Int) : ℚ) := by ring
    rw [hcast]
    by_cases hle : max_count ≤ max 0 (c - n)
    · rw [if_pos hle, if_pos (by exact_mod_cast hle)]
    · rw [if_neg hle, if_neg (by exact_mod_cast hle)]
  · refine ⟨?_, ?_, ?_⟩ <;> norm_num [make_value_func_V, dget]

/-- C4 witness: concrete application of the characterization at the claim's
own numbers — cap `(2, 1)`, usage value 10, transmute 0, held count 3,
consume count 1 — yielding the cap-collapsed value 1. -/
theorem C4_value_func_cap_characterization_witness :
    make_value_func_V (fun _ => ⟨1, [(0, 10)], [], some (2, 1), none⟩)
        0 [(1, 3)] [] (fun _ => none) 1 1 =
      (if (2 : Int) ≤ max 0 (3 - 1) then max (1 : ℚ) 0 else max 10 0) := by
  have h := (C4_value_func_cap_characterization
    (fun _ => ⟨1, [(0, 10)], [], some (2, 1), none⟩) 0 [(1, 3)] [] (fun _ => none)
    1 2 1 10 3 1 rfl rfl (by norm_num [dget]) (by norm_num [dget])
    (by norm_num)).1
  exact h

/-! ## Aggregation strategies (`optimizer.py`, classes
`MaxStrategy`/`AvgStrategy`/`PercentileStrategy`/`CustomStrategy`) -/

/-- Mirror of `MaxStrategy.calculate_next_value`: Python's `max(list)` on a
non-empty list, the current value otherwise. -/
def max_calculate_next_value (current_value : ℚ) (candidate_values : List ℚ) : ℚ :=
  match candidate_values with
  | [] => current_value
  | v :: rest => rest.foldl max v

/-- Mirror of `AvgStrategy.calculate_next_value`:
`sum(values) / max(len(values), 1)` on a non-empty list. -/
def avg_calculate_next_value (current_value : ℚ) (candidate_values : List ℚ) : ℚ :=
  if candidate_values = [] then current_value
  else candidate_values.sum / (max candidate_values.length 1 : ℚ)

/-- Mirror of the constructor clamp `self._p = max(0.0, min(100.0, p))` of
`PercentileStrategy`. -/
def PercentileStrategy_p (percentile : ℚ) : ℚ :=
  max 0 (min 100 percentile)

/-- Mirror of `PercentileStrategy.calculate_next_value` via
`np.percentile` with its default linear interpolation: on the ascending
sort of the candidates, index `h = (p/100)·(n−1)` interpolates linearly
between the neighbouring entries.  (`np.percentile` never raises here, so
the `except` fallback path is dead code.)  `p` is the already-clamped
percentile. -/
def percentile_calculate_next_value (p : ℚ) (current_value : ℚ)
    (candidate_values : List ℚ) : ℚ :=
  if candidate_values = [] then current_value
  else
    let values := List.insertionSort (· ≤ ·) candidate_values
    let n := values.length
    let h : ℚ := (p / 100) * ((n : ℚ) - 1)
    let lo : Nat := (⌊h⌋).toNat
    let frac : ℚ := h - (lo : ℚ)
    values.getD lo 0 + frac * (values.getD (min (lo + 1) (n - 1)) 0 - values.getD lo 0)

/-- The custom strategy's weight dict, restricted to the three component
keys the code reads (`"max"`, `"avg"`, `"pct"`); a missing field is an
absent dict key. -/
structure CustomWeights where
  max : Option ℚ
  avg : Option ℚ
  pct : Option ℚ

/-- Python truthiness `if not weights:` — the dict is empty. -/
def CustomWeights.isEmpty (w : CustomWeights) : Bool :=
  w.max.isNone && w.avg.isNone && w.pct.isNone

/-- `len(weights.values())`: the number of configured entries, zero-weight
entries included. -/
def CustomWeights.size (w : CustomWeights) : Nat :=
  (if w.max.isSome then 1 else 0) + (if w.avg.isSome then 1 else 0) +
    (if w.pct.isSome then 1 else 0)

/-- Mirror of `CustomStrategy.calculate_next_value`: each component
contributes `weight * component_aggregate` when its key is present with a
non-zero weight and `0.0` otherwise; the sum is divided by
`max(len(weights.values()), 1)`; an empty dict is replaced by the default
`{"max": 1, "avg": 1, "pct": 1}` first. -/
def custom_calculate_next_value (percentile : ℚ) (weights : CustomWeights)
    (current_value : ℚ) (candidate_values : List ℚ) : ℚ :=
  if candidate_values = [] then current_value
  else
    let w := if weights.isEmpty then CustomWeights.mk (some 1) (some 1) (some 1)
             else weights
    let max_v := match w.max with
      | some x => if x ≠ 0 then x * max_calculate_next_value current_value candidate_values
                  else 0
      | none => 0
    let avg_v := match w.avg with
      | some x => if x ≠ 0 then x * avg_calculate_next_value current_value candidate_values
                  else 0
      | none => 0
    let pct_v := match w.pct with
      | some x => if x ≠ 0 then
                    x * percentile_calculate_next_value (PercentileStrategy_p percentile)
                      current_value candidate_values
                  else 0
      | none => 0
    (max_v + avg_v + pct_v) / (max w.size 1 : ℚ)

/-- Modelled from the spec for comparison: the weighted blend normalized by
the count of components whose weight is non-zero (the claim's formula, to
be compared against the code's `custom_calculate_next_value`). -/
def custom_blend_spec_normalized (percentile : ℚ) (weights : CustomWeights)
    (current_value : ℚ) (candidate_values : List ℚ) : ℚ :=
  let wm := weights.max.getD 0
  let wa := weights.avg.getD 0
  let wp := weights.pct.getD 0
  let nz : Nat := (if wm ≠ 0 then 1 else 0) + (if wa ≠ 0 then 1 else 0) +
    (if wp ≠ 0 then 1 else 0)
  (wm * max_calculate_next_value current_value candidate_values
    + wa * avg_calculate_next_value current_value candidate_values
    + wp * percentile_calculate_next_value (PercentileStrategy_p percentile)
        current_value candidate_values) / (nz : ℚ)

/-- A guarded weight term collapses to `getD`-weighting: a present zero
weight contributes `0 = 0 * A`. -/
theorem weight_term_eq (o : Option ℚ) (A : ℚ) :
    (match o with
      | some x => if x ≠ 0 then x * A else 0
      | none => 0) = o.getD 0 * A := by
  cases o with
  | none => simp
  | some x =>
    by_cases hx : x = 0 <;> simp [hx]

/-- C5 (counterexample): with weights `{"max": 1, "avg": 0, "pct": 0}` and
candidate list `[4]`, the code returns `(1·4 + 0 + 0)/3 = 4/3` (dividing by
the number of configured entries, zeros included), while the claimed
normalization by the count of non-zero-weighted components gives `4/1 = 4`. -/
theorem C5_counterexample_zero_weight_normalization :
    custom_calculate_next_value 85 ⟨some 1, some 0, some 0⟩ 0 [4] = 4/3
    ∧ custom_blend_spec_normalized 85 ⟨some 1, some 0, some 0⟩ 0 [4] = 4
    ∧ (4/3 : ℚ) ≠ 4 := by
  refine ⟨?_, ?_, by norm_num⟩
  · norm_num [custom_calculate_next_value, CustomWeights.isEmpty, CustomWeights.size,
      max_calculate_next_value]
  · norm_num [custom_blend_spec_normalized, max_calculate_next_value]

/-- C5 (amended): for every non-empty candidate list and weight assignment
over the components max/avg/pct, the custom strategy returns the
`getD`-weighted blend of the max, mean and percentile aggregates divided by
the total number of configured weight entries (zero weights included; three
for the empty-dict default) — not by the count of non-zero-weighted
components. -/
theorem C5_custom_strategy_normalization (percentile : ℚ) (weights : CustomWeights)
    (current_value : ℚ) (candidate_values : List ℚ)
    (hne : candidate_values ≠ []) :
    custom_calculate_next_value percentile weights current_value candidate_values =
      (let w := if weights.isEmpty then CustomWeights.mk (some 1) (some 1) (some 1)
                else weights
       (w.max.getD 0 * max_calculate_next_value current_value candidate_values
         + w.avg.getD 0 * avg_calculate_next_value current_value candidate_values
         + w.pct.getD 0 * percentile_calculate_next_value
             (PercentileStrategy_p percentile) current_value candidate_values)
         / (max w.size 1 : ℚ)) := by
  rw [custom_calculate_next_value, if_neg hne]
  simp only [weight_term_eq]

/-- C5 witness: the amended normalization evaluated at weights
`{"max": 1, "avg": 0, "pct": 0}` and candidates `[4]`. -/
theorem C5_custom_strategy_normalization_witness :
    ([4] : List ℚ) ≠ [] ∧
      custom_calculate_next_value 85 ⟨some 1, some 0, some 0⟩ 0 [4] =
        (((some (1:ℚ)).getD 0 * max_calculate_next_value 0 [4]
          + (some (0:ℚ)).getD 0 * avg_calculate_next_value 0 [4]
          + (some (0:ℚ)).getD 0 * percentile_calculate_next_value
              (PercentileStrategy_p 85) 0 [4])
          / (max (CustomWeights.size ⟨some 1, some 0, some 0⟩) 1 : ℚ)) := by
  refine ⟨by simp, ?_⟩
  have h := C5_custom_strategy_normalization 85 ⟨some 1, some 0, some 0⟩ 0 [4] (by simp)
  simpa [CustomWeights.isEmpty] using h

/-! ## The value-iteration soft update (`_run_value_iteration_core`) -/

/-- The four aggregation strategies maintained by the optimizer
(`config.strategies`), as a closed enumeration. -/
inductive StrategyKind where
  | max
  | avg
  | percentile
  | custom

/-- Strategy dispatch for `strategy.calculate_next_value(old_t, candidates)`
as invoked in the per-cell soft update of `_run_value_iteration_core`. -/
def calculate_next_value (s : StrategyKind) (percentile : ℚ)
    (weights : CustomWeights) (current_value : ℚ)
    (candidate_values : List ℚ) : ℚ :=
  match s with
  | StrategyKind.max => max_calculate_next_value current_value candidate_values
  | StrategyKind.avg => avg_calculate_next_value current_value candidate_values
  | StrategyKind.percentile =>
    percentile_calculate_next_value (PercentileStrategy_p percentile)
      current_value candidate_values
  | StrategyKind.custom =>
    custom_calculate_next_value percentile weights current_value candidate_values

/-- Mirror of the per-cell update
`T[item_id][ph] = (1.0 - alpha) * old_t + alpha * target`. -/
def soft_update (alpha old_t target : ℚ) : ℚ :=
  (1 - alpha) * old_t + alpha * target

/-- C8: for every aggregation strategy, a cell that receives no candidate
values in a sweep has target equal to its current value, and the soft
update then leaves the cell unchanged. -/
theorem C8_empty_candidates_frame (s : StrategyKind) (percentile : ℚ)
    (weights : CustomWeights) (alpha old_t : ℚ) :
    calculate_next_value s percentile weights old_t [] = old_t
    ∧ soft_update alpha old_t (calculate_next_value s percentile weights old_t []) =
        old_t := by
  have h : calculate_next_value s percentile weights old_t [] = old_t := by
    cases s <;>
      simp [calculate_next_value, max_calculate_next_value, avg_calculate_next_value,
        percentile_calculate_next_value, custom_calculate_next_value]
  refine ⟨h, ?_⟩
  rw [soft_update, h]
  ring

/-! ## Non-overlapping uid assignment
(`server.OptimizationHandler.process_optimization`, action loop)

The handler scans ranked actions, assigns concrete inventory instance ids
(uids) in two passes (a quick pass against the globally used set, then a
strict pass that also tracks uids consumed within the current action), and
commits at most `max_actions = 5` actions.  The final response groups
committed actions by recipe id; the grouping does not change the assigned
uids or their count, so the embedding keeps the flat commit list. -/

/-- Mirror of the `items_by_id` index: uids of the submitted
crafting-eligible inventory items with the given type id, in submission
order. -/
def build_items_by_id (transmute_inventory_items : List (Int × Int)) (tid : Int) :
    List Int :=
  (transmute_inventory_items.filter (fun it => it.1 == tid)).map (fun it => it.2)

/-- Mirror of the first assignment pass: for each required type id, pick the
first uid of that type not yet globally used (without tracking uids taken
earlier in the same action); fail if the type id is absent or exhausted. -/
def first_pass (items_by_id : Int → List Int) (global_used : List Int) :
    List Int → Option (List Int)
  | [] => some []
  | tid :: rest =>
    if items_by_id tid = [] then none
    else
      match (items_by_id tid).find? (fun uid => !(global_used.contains uid)) with
      | some uid => (first_pass items_by_id global_used rest).map (fun l => uid :: l)
      | none => none

/-- Mirror of the strict re-verification pass: like the first pass but also
excluding uids claimed earlier within the same action (`temp_used`). -/
def second_pass (items_by_id : Int → List Int) (global_used : List Int) :
    List Int → List Int → Option (List Int)
  | [], _ => some []
  | tid :: rest, temp_used =>
    match (items_by_id tid).find?
        (fun uid => !(global_used.contains uid) && !(temp_used.contains uid)) with
    | some uid =>
      (second_pass items_by_id global_used rest (uid :: temp_used)).map
        (fun l => uid :: l)
    | none => none

/-- State of the commit loop: globally claimed uids, committed action count,
and the committed `(recipe_id, assigned_uids)` list. -/
structure AssignState where
  global_used : List Int
  valid_count : Nat
  output : List (Int × List Int)

/-- Mirror of the action commit loop: stop once 5 actions are committed;
skip an action whose first or second pass fails; otherwise claim its uids
and append it to the output. -/
def process_actions (items_by_id : Int → List Int) :
    List (Int × List Int × ℚ) → AssignState → AssignState
  | [], st => st
  | (rid, tids, _delta) :: rest, st =>
    if st.valid_count ≥ 5 then st
    else
      match first_pass items_by_id st.global_used tids with
      | none => process_actions items_by_id rest st
      | some _ =>
        match second_pass items_by_id st.global_used tids [] with
        | none => process_actions items_by_id rest st
        | some uids =>
          process_actions items_by_id rest
            ⟨st.global_used ++ uids, st.valid_count + 1, st.output ++ [(rid, uids)]⟩

/-- The committed actions of `process_optimization` for a submitted
crafting-eligible inventory and ranked action list. -/
def process_optimization_assign (transmute_inventory_items : List (Int × Int))
    (actions : List (Int × List Int × ℚ)) : List (Int × List Int) :=
  (process_actions (build_items_by_id transmute_inventory_items) actions
    ⟨[], 0, []⟩).output

theorem second_pass_spec (items_by_id : Int → List Int) (global_used : List Int) :
    ∀ (tids temp_used uids : List Int),
      second_pass items_by_id global_used tids temp_used = some uids →
      uids.length = tids.length
      ∧ (∀ p ∈ tids.zip uids, p.2 ∈ items_by_id p.1)
      ∧ (∀ u ∈ uids, u ∉ global_used ∧ u ∉ temp_used)
      ∧ uids.Nodup := by
  intro tids
  induction tids with
  | nil =>
    intro temp_used uids h
    rw [second_pass] at h
    injection h with h
    subst h
    exact ⟨rfl, by simp, by simp, List.nodup_nil⟩
  | cons tid rest ih =>
    intro temp_used uids h
    rw [second_pass] at h
    cases hf : (items_by_id tid).find?
        (fun uid => !(global_used.contains uid) && !(temp_used.contains uid)) with
    | none =>
      rw [hf] at h
      exact Option.noConfusion h
    | some uid =>
      rw [hf] at h
      cases hrec : second_pass items_by_id global_used rest (uid :: temp_used) with
      | none =>
        have h2 : Option.map (fun l => uid :: l)
            (second_pass items_by_id global_used rest (uid :: temp_used)) =
            some uids := h
        rw [hrec] at h2
        exact Option.noConfusion h2
      | some l =>
        have h2 : Option.map (fun l => uid :: l)
            (second_pass items_by_id global_used rest (uid :: temp_used)) =
            some uids := h
        rw [hrec] at h2
        injection h2 with h2
        subst h2
        have huid_mem := List.mem_of_find?_eq_some hf
        have huid_p := List.find?_some hf
        simp only [Bool.and_eq_true, Bool.not_eq_true'] at huid_p
        have huid_gu : uid ∉ global_used := by
          intro hc
          rw [(by simpa using hc : global_used.contains uid = true)] at huid_p
          exact Bool.noConfusion huid_p.1
        have huid_tu : uid ∉ temp_used := by
          intro hc
          rw [(by simpa using hc : temp_used.contains uid = true)] at huid_p
          exact Bool.noConfusion huid_p.2
        obtain ⟨ihlen, ihzip, ihused, ihnodup⟩ := ih (uid :: temp_used) l hrec
        refine ⟨by simp [ihlen], ?_, ?_, ?_⟩
        · intro p hp
          rw [List.zip_cons_cons, List.mem_cons] at hp
          rcases hp with rfl | hp
          · exact huid_mem
          · exact ihzip p hp
        · intro u hu
          rcases List.mem_cons.1 hu with rfl | hu
          · exact ⟨huid_gu, huid_tu⟩
          · obtain ⟨h1, h2⟩ := ihused u hu
            exact ⟨h1, fun hc => h2 (List.mem_cons_of_mem _ hc)⟩
        · rw [List.nodup_cons]
          refine ⟨?_, ihnodup⟩
          intro hc
          exact (ihused uid hc).2 (by simp)

/-- Loop invariant for the commit loop. -/
def GoodState (items_by_id : Int → List Int) (A : List (Int × List Int × ℚ))
    (st : AssignState) : Prop :=
  st.valid_count ≤ 5
  ∧ st.output.length = st.valid_count
  ∧ (st.output.map (fun a => a.2)).flatten.Nodup
  ∧ (∀ u ∈ (st.output.map (fun a => a.2)).flatten, u ∈ st.global_used)
  ∧ (∀ a ∈ st.output, ∃ tids delta, (a.1, tids, delta) ∈ A
      ∧ tids.length = a.2.length ∧ ∀ p ∈ tids.zip a.2, p.2 ∈ items_by_id p.1)

theorem process_actions_good (items_by_id : Int → List Int)
    (A : List (Int × List Int × ℚ)) :
    ∀ (acts : List (Int × List Int × ℚ)) (st : AssignState),
      (∀ a ∈ acts, a ∈ A) → GoodState items_by_id A st →
      GoodState items_by_id A (process_actions items_by_id acts st) := by
  intro acts
  induction acts with
  | nil =>
    intro st _ hst
    rw [process_actions]
    exact hst
  | cons a rest ih =>
    obtain ⟨rid, tids, delta⟩ := a
    intro st hacts hst
    rw [process_actions]
    split_ifs with hcount
    · exact hst
    · cases hfp : first_pass items_by_id st.global_used tids with
      | none =>
        exact ih st (fun a ha => hacts a (List.mem_cons_of_mem _ ha)) hst
      | some w =>
        cases hsp : second_pass items_by_id st.global_used tids [] with
        | none =>
          exact ih st (fun a ha => hacts a (List.mem_cons_of_mem _ ha)) hst
        | some uids =>
          obtain ⟨hlen, hzip, hused, hnodup⟩ :=
            second_pass_spec items_by_id st.global_used tids [] uids hsp
          obtain ⟨hc5, holen, hojoin, housed, hoprop⟩ := hst
          apply ih _ (fun a ha => hacts a (List.mem_cons_of_mem _ ha))
          refine ⟨by show st.valid_count + 1 ≤ 5; omega,
            by show (st.output ++ [(rid, uids)]).length = st.valid_count + 1
               simp [holen], ?_, ?_, ?_⟩
          · simp only [List.map_append, List.flatten_append, List.map_cons,
              List.map_nil, List.flatten_cons, List.flatten_nil, List.append_nil]
            rw [List.nodup_append]
            refine ⟨hojoin, hnodup, ?_⟩
            intro u hu hu2
            exact (hused u hu2).1 (housed u hu)
          · intro u hu
            simp only [List.map_append, List.flatten_append, List.map_cons,
              List.map_nil, List.flatten_cons, List.flatten_nil, List.append_nil,
              List.mem_append] at hu
            rcases hu with hu | hu
            · exact List.mem_append_left _ (housed u hu)
            · exact List.mem_append_right _ hu
          · intro a ha
            rcases List.mem_append.1 ha with ha | ha
            · exact hoprop a ha
            · rw [List.mem_singleton] at ha
              subst ha
              exact ⟨tids, delta, hacts (rid, tids, delta) (by simp),
                hlen.symm, hzip⟩

/-- C9: in every response of the `/optimize` handler, at most 5 actions are
committed, no inventory uid is assigned to more than one committed action,
and every assigned uid belongs to an item of the required ingredient type id
in the submitted crafting-eligible inventory (positionally: the j-th
assigned uid carries the j-th required type id of that action). -/
theorem C9_assignment_properties (transmute_inventory_items : List (Int × Int))
    (actions : List (Int × List Int × ℚ)) :
    (process_optimization_assign transmute_inventory_items actions).length ≤ 5
    ∧ ((process_optimization_assign transmute_inventory_items actions).map
        (fun a => a.2)).flatten.Nodup
    ∧ (∀ a ∈ process_optimization_assign transmute_inventory_items actions,
        ∃ tids delta, (a.1, tids, delta) ∈ actions
          ∧ tids.length = a.2.length
          ∧ ∀ p ∈ tids.zip a.2, p ∈ transmute_inventory_items) := by
  have hgood := process_actions_good (build_items_by_id transmute_inventory_items)
    actions actions ⟨[], 0, []⟩ (fun a ha => ha)
    ⟨by norm_num, rfl, List.nodup_nil, by simp, by simp⟩
  obtain ⟨h5, hlen, hjoin, _, hprop⟩ := hgood
  refine ⟨by rw [process_optimization_assign]; omega, hjoin, ?_⟩
  intro a ha
  obtain ⟨tids, delta, hmem, htlen, hzip⟩ := hprop a ha
  refine ⟨tids, delta, hmem, htlen, ?_⟩
  intro p hp
  have hb := hzip p hp
  rw [build_items_by_id, List.mem_map] at hb
  obtain ⟨it, hit, heq⟩ := hb
  rw [List.mem_filter] at hit
  have h1 : it.1 = p.1 := by simpa using hit.2
  have : it = p := Prod.ext h1 heq
  exact this ▸ hit.1

/-- C9 witness: a concrete run — inventory holds two items of type 10 (uids
1, 2) and one of type 11 (uid 3); the first ranked action consumes two items
of type 10 and is committed with uids `[1, 2]`; the uid/type pairing is
checked against the inventory. -/
theorem C9_assignment_properties_witness :
    ((7 : Int), [(1 : Int), 2]) ∈ process_optimization_assign
        [(10, 1), (10, 2), (11, 3)] [(7, [10, 10], 1), (8, [10, 11], 1)]
    ∧ ∃ tids delta,
        ((7 : Int), tids, delta) ∈ [((7 : Int), [(10 : Int), 10], (1 : ℚ)), (8, [10, 11], 1)]
        ∧ tids.length = [(1 : Int), 2].length
        ∧ ∀ p ∈ tids.zip [(1 : Int), 2], p ∈ [((10 : Int), (1 : Int)), (10, 2), (11, 3)] := by
  have hmem : ((7 : Int), [(1 : Int), 2]) ∈ process_optimization_assign
      [(10, 1), (10, 2), (11, 3)] [(7, [10, 10], 1), (8, [10, 11], 1)] := by
    decide
  exact ⟨hmem,
    (C9_assignment_properties [(10, 1), (10, 2), (11, 3)]
      [(7, [10, 10], 1), (8, [10, 11], 1)]).2.2 (7, [1, 2]) hmem⟩

/-! ## Candidate generation (`optimizer.py`: `_build_candidate_pools`,
`_distribute_budgets_by_rarity`, `generate_greedy_sets_for_recipe`,
`generate_random_sets_for_recipe`) -/

/-- Mirror of the fields of `optimizer.OptimizerConfig` read by the
candidate generators (the remaining fields are not consulted by the
embedded functions).  Python dicts become association lists and sets become
lists with membership semantics. -/
structure OptimizerConfig where
  ingredient_items_excluded : List Int
  ingredient_rarity_whitelist : Option (List Int)
  ingredient_level_min : Option Int
  ingredient_level_max : Option Int
  greedy_sets_per_recipe : List (Int × Int)
  random_sets_per_recipe : List (Int × Int)
  excluded_recipe_rarities : List (Int × Int)

/-- Mirror of `ItemDatabase.filter_items`, including the Python truthiness
quirks: a `level_min`/`level_max` of `None` *or 0* disables that bound, an
empty `rarity_whitelist` or `remove_item_ids` disables that filter. -/
def filter_items (items : List Item) (level_min level_max : Option Int)
    (rarity_whitelist : Option (List Int)) (include_permanent include_usable : Bool)
    (remove_item_ids : List Int) : List Item :=
  items.filter (fun it =>
    !(decide (remove_item_ids ≠ []) && remove_item_ids.contains it.id) &&
    !(match level_min with
      | some lm => decide (lm ≠ 0) && decide (it.required_wave_level < lm)
      | none => false) &&
    !(match level_max with
      | some lM => decide (lM ≠ 0) && decide (lM < it.required_wave_level)
      | none => false) &&
    !(match rarity_whitelist with
      | some wl => decide (wl ≠ []) && !(wl.contains it.rarity)
      | none => false) &&
    !(!include_permanent && it.is_permanent) &&
    !(!include_usable && it.is_usable))

/-- `inventory.get(id, 0)` on an inventory association list. -/
def inv_get (inventory : List (Int × Int)) (item_id : Int) : Int :=
  ((inventory.find? (fun e => e.1 == item_id)).map (fun e => e.2)).getD 0

/-- Final sort of `_build_candidate_pools`: ascending by
`value_func(i, consume_count=1)` when a value function is supplied
(`vf` is the already-applied `lambda i: value_func(i, consume_count=1)`). -/
def sort_by_value (vf : Option (Int → ℚ)) (pool : List Int) : List Int :=
  match vf with
  | none => pool
  | some f => List.insertionSort (fun a b => f a ≤ f b) pool

/-- The unsorted permanent pool of `_build_candidate_pools`: per filtered
item, its id replicated by inventory count (inventory mode) or once (global
mode), following the `if is_permanent / elif is_usable` dispatch. -/
def permanent_pool_raw (item_db : List Item) (config : OptimizerConfig)
    (state_inventory : Option (List (Int × Int))) : List Int :=
  let filtered := filter_items item_db config.ingredient_level_min
    config.ingredient_level_max config.ingredient_rarity_whitelist true true
    config.ingredient_items_excluded
  match state_inventory with
  | some inv =>
    filtered.flatMap (fun it =>
      if inv_get inv it.id ≤ 0 then []
      else if it.is_permanent then List.replicate (inv_get inv it.id).toNat it.id
      else [])
  | none => filtered.filterMap (fun it => if it.is_permanent then some it.id else none)

/-- The unsorted usable pool of `_build_candidate_pools` (the `elif
item.is_usable` branch). -/
def usable_pool_raw (item_db : List Item) (config : OptimizerConfig)
    (state_inventory : Option (List (Int × Int))) : List Int :=
  let filtered := filter_items item_db config.ingredient_level_min
    config.ingredient_level_max config.ingredient_rarity_whitelist true true
    config.ingredient_items_excluded
  match state_inventory with
  | some inv =>
    filtered.flatMap (fun it =>
      if inv_get inv it.id ≤ 0 then []
      else if it.is_permanent then []
      else if it.is_usable then List.replicate (inv_get inv it.id).toNat it.id
      else [])
  | none =>
    filtered.filterMap (fun it =>
      if it.is_permanent then none
      else if it.is_usable then some it.id else none)

/-- Mirror of `optimizer._build_candidate_pools`: the raw pools, each sorted
ascending by current value when a value function is supplied. -/
def build_candidate_pools (item_db : List Item) (config : OptimizerConfig)
    (state_inventory : Option (List (Int × Int))) (vf : Option (Int → ℚ)) :
    List Int × List Int :=
  (sort_by_value vf (permanent_pool_raw item_db config state_inventory),
   sort_by_value vf (usable_pool_raw item_db config state_inventory))

/-- `pools_by_rarity[r]` of `_distribute_budgets_by_rarity`: the permanent
pool entries whose item (looked up in the database, missing ids skipped)
has rarity `r`. -/
def pools_by_rarity_pool (item_db : List Item) (permanent_pool : List Int)
    (r : Int) : List Int :=
  permanent_pool.filter (fun pid =>
    match db_get item_db pid with
    | some it => it.rarity == r
    | none => false)

/-- The distinct rarities occurring in the permanent pool (the key set of
`pools_by_rarity`; only the set matters since valid rarities are sorted
ascending before use). -/
def rarity_keys (item_db : List Item) (permanent_pool : List Int) : List Int :=
  (permanent_pool.filterMap (fun pid => (db_get item_db pid).map
    (fun it => it.rarity))).dedup

/-- The `valid_rarities` of `_distribute_budgets_by_rarity`: rarities with a
non-empty sub-pool, sufficient stock in inventory mode, and not excluded for
this recipe, sorted ascending. -/
def valid_rarities (item_db : List Item) (permanent_pool : List Int)
    (n_perm : Int) (has_inventory : Bool) (recipe_id : Int)
    (excluded_recipe_rarities : List (Int × Int)) : List Int :=
  List.insertionSort (· ≤ ·) ((rarity_keys item_db permanent_pool).filter (fun r =>
    let pool := pools_by_rarity_pool item_db permanent_pool r
    (!has_inventory || decide (n_perm ≤ (pool.length : Int))) &&
    !(pool.isEmpty) &&
    !(excluded_recipe_rarities.contains (recipe_id, r))))

/-- The cumulative proportional budget loop of
`_distribute_budgets_by_rarity`.  Python computes
`int(target * cumulative / total)` in floating point; for the (non-negative)
magnitudes involved this is floor division, embedded as integer division. -/
def distribute_loop (item_db : List Item) (permanent_pool : List Int)
    (target_greedy target_random total : Int) :
    List Int → Int → Int → Int → List (List Int × Int × Int)
  | [], _, _, _ => []
  | r :: rest, current_g, current_r, cumulative =>
    let pool := pools_by_rarity_pool item_db permanent_pool r
    let cumulative' := cumulative + (pool.length : Int)
    let target_g_cum := target_greedy * cumulative' / total
    let g_budget := target_g_cum - current_g
    let target_r_cum := target_random * cumulative' / total
    let r_budget := target_r_cum - current_r
    (pool, g_budget, r_budget) ::
      distribute_loop item_db permanent_pool target_greedy target_random total
        rest target_g_cum target_r_cum cumulative'

/-- Mirror of `optimizer._distribute_budgets_by_rarity`. -/
def distribute_budgets_by_rarity (item_db : List Item) (permanent_pool : List Int)
    (n_perm target_greedy target_random : Int) (has_inventory : Bool)
    (recipe_id : Int) (excluded_recipe_rarities : List (Int × Int)) :
    List (List Int × Int × Int) :=
  if n_perm ≤ 0 then [([], target_greedy, target_random)]
  else
    let valid := valid_rarities item_db permanent_pool n_perm has_inventory
      recipe_id excluded_recipe_rarities
    let total : Int := (valid.map (fun r =>
      ((pools_by_rarity_pool item_db permanent_pool r).length : Int))).sum
    if total ≤ 0 then []
    else distribute_loop item_db permanent_pool target_greedy target_random total
      valid 0 0 0

/-- The sliding windows of one greedy batch: candidate `i` takes
`perm_sub_pool[i : i + n_perm]` plus the first `n_usable` usables. -/
def greedy_windows (perm_sub_pool usable_pool : List Int) (n_perm n_usable : Int)
    (g_budget : Int) : List (List Int) :=
  if g_budget ≤ 0 then []
  else
    let num_perm_sets : Int :=
      if n_perm = 0 then 1 else max 0 ((perm_sub_pool.length : Int) - n_perm) + 1
    let iters := min g_budget num_perm_sets
    (List.range iters.toNat).map (fun i =>
      (if n_perm > 0 then (perm_sub_pool.drop i).take n_perm.toNat else []) ++
      (if n_usable > 0 then usable_pool.take n_usable.toNat else []))

/-- The shared `seen`/`candidates` de-duplication step: skip an empty
candidate, sort it into its canonical key, and append the key unless it was
already produced. -/
def dedup_push (st : List (List Int) × List (List Int)) (current : List Int) :
    List (List Int) × List (List Int) :=
  if current = [] then st
  else
    let key := List.insertionSort (· ≤ ·) current
    if st.1.contains key then st
    else (key :: st.1, st.2 ++ [key])

/-- Mirror of `optimizer.generate_greedy_sets_for_recipe` (the recipe is
passed directly in place of the `recipe_db.recipes[recipe_id]` lookup). -/
def generate_greedy_sets_for_recipe (item_db : List Item) (recipe : Recipe)
    (config : OptimizerConfig) (state_inventory : Option (List (Int × Int)))
    (vf : Option (Int → ℚ)) : List (List Int) :=
  let pools := build_candidate_pools item_db config state_inventory vf
  let permanent_pool := pools.1
  let usable_pool := pools.2
  let n_perm := recipe.permanent_count
  let n_usable := recipe.usable_count
  let greedy_base := (alist_get? config.greedy_sets_per_recipe (-1)).getD 0
  let greedy_delta := (alist_get? config.greedy_sets_per_recipe recipe.id).getD 0
  let target_greedy := max 0 (greedy_base + greedy_delta)
  if target_greedy ≤ 0 then []
  else if n_perm ≤ 0 ∧ n_usable ≤ 0 then []
  else if state_inventory.isSome ∧
      ((0 < n_perm ∧ (permanent_pool.length : Int) < n_perm) ∨
       (0 < n_usable ∧ (usable_pool.length : Int) < n_usable)) then []
  else if state_inventory.isNone ∧
      ((0 < n_perm ∧ permanent_pool = []) ∨
       (0 < n_usable ∧ usable_pool = [])) then []
  else
    let batches := distribute_budgets_by_rarity item_db permanent_pool n_perm
      target_greedy 0 state_inventory.isSome recipe.id
      config.excluded_recipe_rarities
    if batches = [] then []
    else
      ((batches.flatMap (fun b => greedy_windows b.1 usable_pool n_perm n_usable
        b.2.1)).foldl dedup_push ([], [])).2

/-- One random draw of `k` elements from a pool, driven by an abstract
index stream `rng` (read at `base`, `base+1`, …).  This models both
`random.sample` (without replacement) and `random.choices` (with
replacement): the verified properties depend only on every drawn element
being a member of the pool, which holds for any index stream whenever the
pool is non-empty (and the call sites only draw from non-empty pools —
`random.choices` on an empty pool would raise). -/
def draw_list (rng : Nat → Nat) (base : Nat) (pool : List Int) (k : Nat) :
    List Int :=
  (List.range k).map (fun j => pool.getD (rng (base + j) % pool.length) 0)

/-- The permanent half of one random try: `random.sample` in inventory mode
(after the `len(perm_sub_pool) < n_perm: continue` guard), `random.choices`
in global mode; nothing drawn when the recipe has no permanent slots. -/
def perm_draw (rng : Nat → Nat) (base : Nat) (perm_sub_pool : List Int)
    (n_perm : Int) (has_inventory : Bool) : Option (List Int) :=
  if 0 < n_perm then
    if has_inventory then
      if (perm_sub_pool.length : Int) < n_perm then none
      else some (draw_list rng base perm_sub_pool n_perm.toNat)
    else some (draw_list rng base perm_sub_pool n_perm.toNat)
  else some []

/-- The usable half of one random try, with its `continue` guards
(insufficient stock in inventory mode, empty pool in global mode). -/
def usable_draw (rng : Nat → Nat) (base : Nat) (usable_pool : List Int)
    (n_usable : Int) (has_inventory : Bool) : Option (List Int) :=
  if 0 < n_usable then
    if has_inventory then
      if (usable_pool.length : Int) < n_usable then none
      else some (draw_list rng base usable_pool n_usable.toNat)
    else
      if usable_pool = [] then none
      else some (draw_list rng base usable_pool n_usable.toNat)
  else some []

/-- One iteration body of the random-candidate `tries` loop: `none` models a
`continue`. -/
def random_try_current (rng : Nat → Nat) (base : Nat)
    (perm_sub_pool usable_pool : List Int) (n_perm n_usable : Int)
    (has_inventory : Bool) : Option (List Int) :=
  match perm_draw rng base perm_sub_pool n_perm has_inventory,
      usable_draw rng (base + n_perm.toNat) usable_pool n_usable has_inventory with
  | some p, some u => some (p ++ u)
  | _, _ => none

/-- The `tries` loop of one random batch: skip `continue`d or duplicate or
empty draws, append fresh keys, and break once the global candidate list
reaches this batch's budget. -/
def random_batch_loop (rng : Nat → Nat) (perm_sub_pool usable_pool : List Int)
    (n_perm n_usable : Int) (has_inventory : Bool) (r_budget : Int) :
    Nat → Nat → List (List Int) → List (List Int) →
    List (List Int) × List (List Int)
  | 0, _, seen, out => (seen, out)
  | Nat.succ t, base, seen, out =>
    let stride := n_perm.toNat + n_usable.toNat
    match random_try_current rng base perm_sub_pool usable_pool n_perm n_usable
        has_inventory with
    | none =>
      random_batch_loop rng perm_sub_pool usable_pool n_perm n_usable
        has_inventory r_budget t (base + stride) seen out
    | some current =>
      if current = [] then
        random_batch_loop rng perm_sub_pool usable_pool n_perm n_usable
          has_inventory r_budget t (base + stride) seen out
      else
        let key := List.insertionSort (· ≤ ·) current
        if seen.contains key then
          random_batch_loop rng perm_sub_pool usable_pool n_perm n_usable
            has_inventory r_budget t (base + stride) seen out
        else
          if ((out ++ [key]).length : Int) ≥ r_budget then (key :: seen, out ++ [key])
          else
            random_batch_loop rng perm_sub_pool usable_pool n_perm n_usable
              has_inventory r_budget t (base + stride) (key :: seen) (out ++ [key])

/-- One batch of the random generator's outer loop: skip zero budgets,
otherwise run the `tries` loop (`tries = max(r_budget * 4, r_budget)`)
against the shared `seen`/`candidates` state. -/
def random_batch_step (rng : Nat → Nat) (usable_pool : List Int)
    (n_perm n_usable : Int) (has_inventory : Bool)
    (st : List (List Int) × List (List Int)) (b : List Int × Int × Int) :
    List (List Int) × List (List Int) :=
  if b.2.2 ≤ 0 then st
  else
    random_batch_loop rng b.1 usable_pool n_perm n_usable has_inventory b.2.2
      (max (b.2.2 * 4) b.2.2).toNat 0 st.1 st.2

/-- Mirror of `optimizer.generate_random_sets_for_recipe`, with the
`random` module modelled by the abstract index stream `rng`. -/
def generate_random_sets_for_recipe (rng : Nat → Nat) (item_db : List Item)
    (recipe : Recipe) (config : OptimizerConfig)
    (state_inventory : Option (List (Int × Int))) : List (List Int) :=
  let pools := build_candidate_pools item_db config state_inventory none
  let permanent_pool := pools.1
  let usable_pool := pools.2
  let n_perm := recipe.permanent_count
  let n_usable := recipe.usable_count
  let random_base := (alist_get? config.random_sets_per_recipe (-1)).getD 0
  let random_delta := (alist_get? config.random_sets_per_recipe recipe.id).getD 0
  let target_random := max 0 (random_base + random_delta)
  if target_random ≤ 0 then []
  else if n_perm ≤ 0 ∧ n_usable ≤ 0 then []
  else if state_inventory.isSome ∧
      ((0 < n_perm ∧ (permanent_pool.length : Int) < n_perm) ∨
       (0 < n_usable ∧ (usable_pool.length : Int) < n_usable)) then []
  else if state_inventory.isNone ∧
      ((0 < n_perm ∧ permanent_pool = []) ∨
       (0 < n_usable ∧ usable_pool = [])) then []
  else
    let batches := distribute_budgets_by_rarity item_db permanent_pool n_perm 0
      target_random state_inventory.isSome recipe.id
      config.excluded_recipe_rarities
    if batches = [] then []
    else
      (batches.foldl
        (random_batch_step rng usable_pool n_perm n_usable state_inventory.isSome)
        ([], [])).2

/-! ### Single-rarity invariant of the generated candidate sets -/

/-- Every batch produced by the budget loop carries the sub-pool of one of
the listed rarities. -/
theorem distribute_loop_pools (item_db : List Item) (permanent_pool : List Int)
    (target_greedy target_random total : Int) :
    ∀ (ks : List Int) (cg cr cum : Int),
      ∀ b ∈ distribute_loop item_db permanent_pool target_greedy target_random
        total ks cg cr cum,
      ∃ r ∈ ks, b.1 = pools_by_rarity_pool item_db permanent_pool r := by
  intro ks
  induction ks with
  | nil =>
    intro cg cr cum b hb
    rw [distribute_loop] at hb
    exact absurd hb (List.not_mem_nil b)
  | cons r rest ih =>
    intro cg cr cum b hb
    rw [distribute_loop] at hb
    rcases List.mem_cons.1 hb with rfl | hb
    · exact ⟨r, by simp, rfl⟩
    · obtain ⟨r', hr', hshape⟩ := ih _ _ _ b hb
      exact ⟨r', List.mem_cons_of_mem _ hr', hshape⟩

/-- With at least one permanent slot, every batch's pool is one rarity's
non-empty sub-pool. -/
theorem distribute_budgets_pool_shape (item_db : List Item)
    (permanent_pool : List Int) (n_perm target_greedy target_random : Int)
    (has_inventory : Bool) (recipe_id : Int)
    (excluded_recipe_rarities : List (Int × Int)) (hn : 0 < n_perm) :
    ∀ b ∈ distribute_budgets_by_rarity item_db permanent_pool n_perm target_greedy
      target_random has_inventory recipe_id excluded_recipe_rarities,
      ∃ r, b.1 = pools_by_rarity_pool item_db permanent_pool r ∧ b.1 ≠ [] := by
  intro b hb
  rw [distribute_budgets_by_rarity, if_neg (by omega)] at hb
  have hb2 : b ∈ (if ((valid_rarities item_db permanent_pool n_perm has_inventory
        recipe_id excluded_recipe_rarities).map (fun r =>
          ((pools_by_rarity_pool item_db permanent_pool r).length : Int))).sum ≤ 0
      then ([] : List (List Int × Int × Int))
      else distribute_loop item_db permanent_pool target_greedy target_random
        ((valid_rarities item_db permanent_pool n_perm has_inventory recipe_id
          excluded_recipe_rarities).map (fun r =>
            ((pools_by_rarity_pool item_db permanent_pool r).length : Int))).sum
        (valid_rarities item_db permanent_pool n_perm has_inventory recipe_id
          excluded_recipe_rarities) 0 0 0) := hb
  split_ifs at hb2 with htotal
  · exact absurd hb2 (List.not_mem_nil b)
  · obtain ⟨r, hr, hshape⟩ := distribute_loop_pools _ _ _ _ _ _ _ _ _ b hb2
    refine ⟨r, hshape, ?_⟩
    rw [valid_rarities, (List.perm_insertionSort _ _).mem_iff, List.mem_filter] at hr
    have hcond := hr.2
    simp only [Bool.and_eq_true, Bool.not_eq_true'] at hcond
    rw [hshape]
    intro hempty
    rw [← List.isEmpty_iff] at hempty
    rw [hempty] at hcond
    exact Bool.noConfusion hcond.1.2

/-- Membership in a rarity sub-pool determines the item's rarity. -/
theorem pools_by_rarity_pool_rarity (item_db : List Item)
    (permanent_pool : List Int) (r : Int) (pid : Int)
    (h : pid ∈ pools_by_rarity_pool item_db permanent_pool r) :
    ∃ it, db_get item_db pid = some it ∧ it.rarity = r := by
  rw [pools_by_rarity_pool, List.mem_filter] at h
  cases hg : db_get item_db pid with
  | none =>
    rw [hg] at h
    exact absurd h.2 (by simp)
  | some it =>
    rw [hg] at h
    exact ⟨it, rfl, by simpa using h.2⟩

/-- Items with equal ids in a database with `Nodup` ids are equal. -/
theorem db_unique_by_id (item_db : List Item)
    (hid : (item_db.map (fun it => it.id)).Nodup) (it1 it2 : Item)
    (h1 : it1 ∈ item_db) (h2 : it2 ∈ item_db) (heq : it1.id = it2.id) :
    it1 = it2 :=
  List.inj_on_of_nodup_map hid h1 h2 heq

/-- `db_get` returns a member of the database carrying the queried id. -/
theorem db_get_mem (item_db : List Item) (item_id : Int) (it : Item)
    (h : db_get item_db item_id = some it) : it ∈ item_db ∧ it.id = item_id := by
  rw [db_get] at h
  exact ⟨List.mem_of_find?_eq_some h, by simpa using List.find?_some h⟩

/-- Sorting by value is a permutation, so membership is unchanged. -/
theorem sort_by_value_mem (vf : Option (Int → ℚ)) (pool : List Int) (x : Int) :
    x ∈ sort_by_value vf pool ↔ x ∈ pool := by
  cases vf with
  | none => rw [sort_by_value]
  | some f =>
    rw [sort_by_value]
    exact (List.perm_insertionSort _ _).mem_iff

/-- Every id in the usable pool of `_build_candidate_pools` belongs to a
non-permanent item: the `elif item.is_usable` branch only collects items
for which `is_permanent` failed, and ids are unique. -/
theorem usable_pool_not_permanent (item_db : List Item) (config : OptimizerConfig)
    (state_inventory : Option (List (Int × Int))) (vf : Option (Int → ℚ))
    (hid : (item_db.map (fun it => it.id)).Nodup) :
    ∀ uid ∈ (build_candidate_pools item_db config state_inventory vf).2,
      ∀ it, db_get item_db uid = some it → it.is_permanent = false := by
  intro uid hu it hget
  have hu1 : uid ∈ sort_by_value vf (usable_pool_raw item_db config state_inventory) := hu
  have hu2 : uid ∈ usable_pool_raw item_db config state_inventory :=
    (sort_by_value_mem _ _ _).1 hu1
  have hex : ∃ it0, it0 ∈ item_db ∧ it0.id = uid ∧ it0.is_permanent = false := by
    rw [usable_pool_raw.eq_def] at hu2
    cases state_inventory with
    | none =>
      rw [List.mem_filterMap] at hu2
      obtain ⟨it0, hit0, hval⟩ := hu2
      have hmem : it0 ∈ item_db := List.mem_of_mem_filter hit0
      by_cases hp : it0.is_permanent
      · rw [if_pos hp] at hval
        exact Option.noConfusion hval
      · rw [if_neg hp] at hval
        split_ifs at hval
        · injection hval with hval
          exact ⟨it0, hmem, hval, by simpa using hp⟩
    | some inv =>
      rw [List.mem_flatMap] at hu2
      obtain ⟨it0, hit0, hval⟩ := hu2
      have hmem : it0 ∈ item_db := List.mem_of_mem_filter hit0
      split_ifs at hval with hc hp husable
      · exact absurd hval (List.not_mem_nil uid)
      · exact absurd hval (List.not_mem_nil uid)
      · exact ⟨it0, hmem, (List.eq_of_mem_replicate hval).symm, by simpa using hp⟩
      · exact absurd hval (List.not_mem_nil uid)
  obtain ⟨it0, hmem0, hid0, hperm0⟩ := hex
  obtain ⟨hmem, hgid⟩ := db_get_mem item_db uid it hget
  have : it = it0 := db_unique_by_id item_db hid it it0 hmem hmem0 (by rw [hgid, hid0])
  rw [this]
  exact hperm0

/-- Every element of a greedy window comes from its batch pool or from the
usable-pool prefix. -/
theorem greedy_windows_mem (perm_sub_pool usable_pool : List Int)
    (n_perm n_usable g_budget : Int) :
    ∀ cur ∈ greedy_windows perm_sub_pool usable_pool n_perm n_usable g_budget,
      ∀ x ∈ cur, x ∈ perm_sub_pool ∨ x ∈ usable_pool := by
  intro cur hcur x hx
  rw [greedy_windows] at hcur
  by_cases hg : g_budget ≤ 0
  · rw [if_pos hg] at hcur
    exact absurd hcur (List.not_mem_nil cur)
  · rw [if_neg hg] at hcur
    have hcur2 : cur ∈ List.map (fun i =>
        (if 0 < n_perm then (perm_sub_pool.drop i).take n_perm.toNat else []) ++
        (if 0 < n_usable then usable_pool.take n_usable.toNat else []))
        (List.range (min g_budget (if n_perm = 0 then 1
          else max 0 ((perm_sub_pool.length : Int) - n_perm) + 1)).toNat) := hcur
    rw [List.mem_map] at hcur2
    obtain ⟨i, _, rfl⟩ := hcur2
    rcases List.mem_append.1 hx with hx | hx
    · by_cases hp : 0 < n_perm
      · rw [if_pos hp] at hx
        exact Or.inl (List.drop_subset i _ (List.take_subset _ _ hx))
      · rw [if_neg hp] at hx
        exact absurd hx (List.not_mem_nil x)
    · by_cases hu : 0 < n_usable
      · rw [if_pos hu] at hx
        exact Or.inr (List.take_subset _ _ hx)
      · rw [if_neg hu] at hx
        exact absurd hx (List.not_mem_nil x)

/-- Every candidate emitted by the de-duplicating fold is the sorted key of
one of the processed raw candidates (or was already in the accumulator). -/
theorem foldl_dedup_mem (S : List Int) :
    ∀ (ws : List (List Int)) (st : List (List Int) × List (List Int)),
      S ∈ (ws.foldl dedup_push st).2 →
      S ∈ st.2 ∨ ∃ cur ∈ ws, S = List.insertionSort (· ≤ ·) cur := by
  intro ws
  induction ws with
  | nil =>
    intro st h
    exact Or.inl h
  | cons cur rest ih =>
    intro st h
    rw [List.foldl_cons] at h
    rcases ih (dedup_push st cur) h with hmem | ⟨cur', hcur', heq⟩
    · rw [dedup_push] at hmem
      by_cases h1 : cur = []
      · rw [if_pos h1] at hmem
        exact Or.inl hmem
      · rw [if_neg h1] at hmem
        have hmem2 : S ∈ (if st.1.contains (List.insertionSort (· ≤ ·) cur) = true
            then st
            else (List.insertionSort (· ≤ ·) cur :: st.1,
              st.2 ++ [List.insertionSort (· ≤ ·) cur])).2 := hmem
        by_cases h2 : st.1.contains (List.insertionSort (· ≤ ·) cur) = true
        · rw [if_pos h2] at hmem2
          exact Or.inl hmem2
        · rw [if_neg h2] at hmem2
          rcases List.mem_append.1 hmem2 with hmem3 | hmem3
          · exact Or.inl hmem3
          · rw [List.mem_singleton] at hmem3
            exact Or.inr ⟨cur, by simp, hmem3⟩
    · exact Or.inr ⟨cur', List.mem_cons_of_mem _ hcur', heq⟩

/-- A draw from a non-empty pool only produces pool members. -/
theorem draw_list_mem (rng : Nat → Nat) (base : Nat) (pool : List Int) (k : Nat)
    (hp : pool ≠ []) : ∀ x ∈ draw_list rng base pool k, x ∈ pool := by
  intro x hx
  rw [draw_list, List.mem_map] at hx
  obtain ⟨j, _, rfl⟩ := hx
  have hlen : 0 < pool.length := List.length_pos.2 hp
  have hlt : rng (base + j) % pool.length < pool.length := Nat.mod_lt _ hlen
  rw [List.getD_eq_getElem?_getD, List.getElem?_eq_getElem hlt]
  exact List.getElem_mem _

/-- A successful permanent draw only contains members of the batch pool. -/
theorem perm_draw_mem (rng : Nat → Nat) (base : Nat) (perm_sub_pool : List Int)
    (n_perm : Int) (has_inventory : Bool) (p : List Int)
    (hp : 0 < n_perm → perm_sub_pool ≠ [])
    (h : perm_draw rng base perm_sub_pool n_perm has_inventory = some p) :
    ∀ x ∈ p, x ∈ perm_sub_pool := by
  rw [perm_draw] at h
  by_cases hnp : 0 < n_perm
  · rw [if_pos hnp] at h
    have hpool := hp hnp
    cases has_inventory with
    | false =>
      rw [if_neg (by simp)] at h
      injection h with h
      subst h
      exact draw_list_mem _ _ _ _ hpool
    | true =>
      rw [if_pos rfl] at h
      by_cases hlen : (perm_sub_pool.length : Int) < n_perm
      · rw [if_pos hlen] at h
        exact Option.noConfusion h
      · rw [if_neg hlen] at h
        injection h with h
        subst h
        exact draw_list_mem _ _ _ _ hpool
  · rw [if_neg hnp] at h
    injection h with h
    subst h
    intro x hx
    exact absurd hx (List.not_mem_nil x)

/-- A successful usable draw only contains members of the usable pool. -/
theorem usable_draw_mem (rng : Nat → Nat) (base : Nat) (usable_pool : List Int)
    (n_usable : Int) (has_inventory : Bool) (u : List Int)
    (h : usable_draw rng base usable_pool n_usable has_inventory = some u) :
    ∀ x ∈ u, x ∈ usable_pool := by
  rw [usable_draw] at h
  by_cases hnu : 0 < n_usable
  · rw [if_pos hnu] at h
    cases has_inventory with
    | false =>
      rw [if_neg (by simp)] at h
      by_cases hue : usable_pool = []
      · rw [if_pos hue] at h
        exact Option.noConfusion h
      · rw [if_neg hue] at h
        injection h with h
        subst h
        exact draw_list_mem _ _ _ _ hue
    | true =>
      rw [if_pos rfl] at h
      by_cases hlen : (usable_pool.length : Int) < n_usable
      · rw [if_pos hlen] at h
        exact Option.noConfusion h
      · rw [if_neg hlen] at h
        injection h with h
        subst h
        have hune : usable_pool ≠ [] := by
          intro hc
          rw [hc] at hlen
          simp at hlen
          omega
        exact draw_list_mem _ _ _ _ hune
  · rw [if_neg hnu] at h
    injection h with h
    subst h
    intro x hx
    exact absurd hx (List.not_mem_nil x)

/-- Every element of a successful random try comes from the batch pool or
the usable pool. -/
theorem random_try_current_mem (rng : Nat → Nat) (base : Nat)
    (perm_sub_pool usable_pool : List Int) (n_perm n_usable : Int)
    (has_inventory : Bool) (cur : List Int)
    (hp : 0 < n_perm → perm_sub_pool ≠ [])
    (h : random_try_current rng base perm_sub_pool usable_pool n_perm n_usable
      has_inventory = some cur) :
    ∀ x ∈ cur, x ∈ perm_sub_pool ∨ x ∈ usable_pool := by
  rw [random_try_current] at h
  cases hP : perm_draw rng base perm_sub_pool n_perm has_inventory with
  | none =>
    rw [hP] at h
    cases hU : usable_draw rng (base + n_perm.toNat) usable_pool n_usable
        has_inventory <;> rw [hU] at h <;> exact Option.noConfusion h
  | some p =>
    rw [hP] at h
    cases hU : usable_draw rng (base + n_perm.toNat) usable_pool n_usable
        has_inventory with
    | none =>
      rw [hU] at h
      exact Option.noConfusion h
    | some u =>
      rw [hU] at h
      have h2 : some (p ++ u) = some cur := h
      injection h2 with h2
      subst h2
      intro x hx
      rcases List.mem_append.1 hx with hx | hx
      · exact Or.inl (perm_draw_mem _ _ _ _ _ _ hp hP x hx)
      · exact Or.inr (usable_draw_mem _ _ _ _ _ _ hU x hx)

/-- Every candidate emitted by one batch's tries loop is the sorted key of
some successful random try on that batch (or was already accumulated). -/
theorem random_batch_loop_mem (rng : Nat → Nat)
    (perm_sub_pool usable_pool : List Int) (n_perm n_usable : Int)
    (has_inventory : Bool) (r_budget : Int) (S : List Int) :
    ∀ (t base : Nat) (seen out : List (List Int)),
      S ∈ (random_batch_loop rng perm_sub_pool usable_pool n_perm n_usable
        has_inventory r_budget t base seen out).2 →
      S ∈ out ∨ ∃ base' cur,
        random_try_current rng base' perm_sub_pool usable_pool n_perm n_usable
          has_inventory = some cur ∧ S = List.insertionSort (· ≤ ·) cur := by
  intro t
  induction t with
  | zero =>
    intro base seen out h
    exact Or.inl h
  | succ t ih =>
    intro base seen out h
    rw [random_batch_loop] at h
    cases htry : random_try_current rng base perm_sub_pool usable_pool n_perm
        n_usable has_inventory with
    | none =>
      rw [htry] at h
      exact ih _ _ _ h
    | some cur =>
      rw [htry] at h
      have h2 : S ∈ (if cur = [] then
            random_batch_loop rng perm_sub_pool usable_pool n_perm n_usable
              has_inventory r_budget t (base + (n_perm.toNat + n_usable.toNat))
              seen out
          else
            if seen.contains (List.insertionSort (· ≤ ·) cur) = true then
              random_batch_loop rng perm_sub_pool usable_pool n_perm n_usable
                has_inventory r_budget t (base + (n_perm.toNat + n_usable.toNat))
                seen out
            else
              if ((out ++ [List.insertionSort (· ≤ ·) cur]).length : Int) ≥
                  r_budget then
                (List.insertionSort (· ≤ ·) cur :: seen,
                  out ++ [List.insertionSort (· ≤ ·) cur])
              else
                random_batch_loop rng perm_sub_pool usable_pool n_perm n_usable
                  has_inventory r_budget t (base + (n_perm.toNat + n_usable.toNat))
                  (List.insertionSort (· ≤ ·) cur :: seen)
                  (out ++ [List.insertionSort (· ≤ ·) cur])).2 := h
      split_ifs at h2 with h1 hseen hbudget
      · exact ih _ _ _ h2
      · exact ih _ _ _ h2
      · rcases List.mem_append.1 h2 with hmem | hmem
        · exact Or.inl hmem
        · rw [List.mem_singleton] at hmem
          exact Or.inr ⟨base, cur, htry, hmem⟩
      · rcases ih _ _ _ h2 with hmem | hex
        · rcases List.mem_append.1 hmem with hmem | hmem
          · exact Or.inl hmem
          · rw [List.mem_singleton] at hmem
            exact Or.inr ⟨base, cur, htry, hmem⟩
        · exact Or.inr hex

/-- Every candidate emitted by the outer batch fold is the sorted key of a
successful random try on one of the batches. -/
theorem random_fold_mem (rng : Nat → Nat) (usable_pool : List Int)
    (n_perm n_usable : Int) (has_inventory : Bool) (S : List Int) :
    ∀ (bs : List (List Int × Int × Int)) (st : List (List Int) × List (List Int)),
      S ∈ (bs.foldl (random_batch_step rng usable_pool n_perm n_usable
        has_inventory) st).2 →
      S ∈ st.2 ∨ ∃ b ∈ bs, ∃ base' cur,
        random_try_current rng base' b.1 usable_pool n_perm n_usable
          has_inventory = some cur ∧ S = List.insertionSort (· ≤ ·) cur := by
  intro bs
  induction bs with
  | nil =>
    intro st h
    exact Or.inl h
  | cons b rest ih =>
    intro st h
    rw [List.foldl_cons] at h
    rcases ih _ h with hmem | ⟨b', hb', hex⟩
    · rw [random_batch_step] at hmem
      split_ifs at hmem with h1
      · exact Or.inl hmem
      · rcases random_batch_loop_mem rng b.1 usable_pool n_perm n_usable
          has_inventory b.2.2 S _ _ _ _ hmem with hmem2 | hex
        · exact Or.inl hmem2
        · exact Or.inr ⟨b, by simp, hex⟩
    · exact Or.inr ⟨b', List.mem_cons_of_mem _ hb', hex⟩

/-- Membership in an if-then-else whose `then` branch is the empty list
forces the `else` branch (the generators' early-exit guards all return
`[]`). -/
theorem mem_ite_nil {α : Type} (c : Prop) [Decidable c] (l : List α) (a : α)
    (h : a ∈ if c then ([] : List α) else l) : a ∈ l := by
  split_ifs at h with hc
  · exact absurd h (List.not_mem_nil a)
  · exact h

/-- Every batch of the budget distribution has an empty pool (no permanent
slots) or one rarity's non-empty sub-pool. -/
theorem batch_shape (item_db : List Item) (permanent_pool : List Int)
    (n_perm target_greedy target_random : Int) (has_inventory : Bool)
    (recipe_id : Int) (excluded_recipe_rarities : List (Int × Int))
    (b : List Int × Int × Int)
    (hb : b ∈ distribute_budgets_by_rarity item_db permanent_pool n_perm
      target_greedy target_random has_inventory recipe_id
      excluded_recipe_rarities) :
    (b.1 = [] ∨ ∃ r, b.1 = pools_by_rarity_pool item_db permanent_pool r) ∧
    (0 < n_perm → b.1 ≠ []) := by
  by_cases hn : n_perm ≤ 0
  · rw [distribute_budgets_by_rarity, if_pos hn] at hb
    rcases List.mem_singleton.1 hb with rfl
    exact ⟨Or.inl rfl, fun h => absurd h (by omega)⟩
  · have hn0 : 0 < n_perm := by omega
    obtain ⟨r, hshape, hne⟩ := distribute_budgets_pool_shape item_db
      permanent_pool n_perm target_greedy target_random has_inventory recipe_id
      excluded_recipe_rarities hn0 b hb
    exact ⟨Or.inr ⟨r, hshape⟩, fun _ => hne⟩

/-- Core single-rarity argument: if every element of a raw candidate comes
from one rarity sub-pool (or an empty batch pool) or from the usable pool,
then any two permanent members of the candidate share a rarity. -/
theorem cur_single_rarity (item_db : List Item) (config : OptimizerConfig)
    (state_inventory : Option (List (Int × Int))) (vf : Option (Int → ℚ))
    (hid : (item_db.map (fun it => it.id)).Nodup)
    (bpool perm_pool : List Int) (cur : List Int)
    (hb : bpool = [] ∨ ∃ r, bpool = pools_by_rarity_pool item_db perm_pool r)
    (hcur : ∀ x ∈ cur, x ∈ bpool ∨
      x ∈ (build_candidate_pools item_db config state_inventory vf).2) :
    ∀ x ∈ cur, ∀ y ∈ cur, ∀ itx ity, db_get item_db x = some itx →
      db_get item_db y = some ity → itx.is_permanent = true →
      ity.is_permanent = true → itx.rarity = ity.rarity := by
  have husable : ∀ z ∈ cur, ∀ itz, db_get item_db z = some itz →
      itz.is_permanent = true → z ∈ bpool := by
    intro z hz itz hgz hpz
    rcases hcur z hz with hzb | hzu
    · exact hzb
    · have hnp := usable_pool_not_permanent item_db config state_inventory vf
        hid z hzu itz hgz
      rw [hpz] at hnp
      exact Bool.noConfusion hnp
  rcases hb with hb | ⟨r, hb⟩
  · intro x hx y hy itx ity hgx hgy hpx hpy
    have hxb := husable x hx itx hgx hpx
    rw [hb] at hxb
    exact absurd hxb (List.not_mem_nil x)
  · have hrar : ∀ z ∈ cur, ∀ itz, db_get item_db z = some itz →
        itz.is_permanent = true → itz.rarity = r := by
      intro z hz itz hgz hpz
      have hzb := husable z hz itz hgz hpz
      rw [hb] at hzb
      obtain ⟨it0, hg0, hr0⟩ := pools_by_rarity_pool_rarity item_db perm_pool
        r z hzb
      rw [hgz] at hg0
      injection hg0 with hg0
      rw [hg0]
      exact hr0
    intro x hx y hy itx ity hgx hgy hpx hpy
    rw [hrar x hx itx hgx hpx, hrar y hy ity hgy hpy]

/-- Every greedy candidate set is the sorted key of a raw candidate each of
whose elements comes from one budget batch's pool or from the usable pool. -/
theorem greedy_set_sources (item_db : List Item) (recipe : Recipe)
    (config : OptimizerConfig) (state_inventory : Option (List (Int × Int)))
    (vf : Option (Int → ℚ)) (S : List Int)
    (hS : S ∈ generate_greedy_sets_for_recipe item_db recipe config
      state_inventory vf) :
    ∃ b ∈ distribute_budgets_by_rarity item_db
        (build_candidate_pools item_db config state_inventory vf).1
        recipe.permanent_count
        (max 0 ((alist_get? config.greedy_sets_per_recipe (-1)).getD 0 +
          (alist_get? config.greedy_sets_per_recipe recipe.id).getD 0)) 0
        state_inventory.isSome recipe.id config.excluded_recipe_rarities,
      ∃ cur, (∀ x ∈ cur, x ∈ b.1 ∨
          x ∈ (build_candidate_pools item_db config state_inventory vf).2) ∧
        S = List.insertionSort (· ≤ ·) cur := by
  rw [generate_greedy_sets_for_recipe] at hS
  have hS1 := mem_ite_nil _ _ _ hS
  have hS2 := mem_ite_nil _ _ _ hS1
  have hS3 := mem_ite_nil _ _ _ hS2
  have hS4 := mem_ite_nil _ _ _ hS3
  have hS5 := mem_ite_nil _ _ _ hS4
  rcases foldl_dedup_mem S _ _ hS5 with habs | ⟨cur, hcur, heq⟩
  · exact absurd habs (List.not_mem_nil S)
  · rw [List.mem_flatMap] at hcur
    obtain ⟨b, hb, hcurb⟩ := hcur
    exact ⟨b, hb, cur,
      fun x hx => greedy_windows_mem _ _ _ _ _ cur hcurb x hx, heq⟩

/-- Every random candidate set is the sorted key of one successful random
try against one budget batch's pool. -/
theorem random_set_sources (rng : Nat → Nat) (item_db : List Item)
    (recipe : Recipe) (config : OptimizerConfig)
    (state_inventory : Option (List (Int × Int))) (S : List Int)
    (hS : S ∈ generate_random_sets_for_recipe rng item_db recipe config
      state_inventory) :
    ∃ b ∈ distribute_budgets_by_rarity item_db
        (build_candidate_pools item_db config state_inventory none).1
        recipe.permanent_count 0
        (max 0 ((alist_get? config.random_sets_per_recipe (-1)).getD 0 +
          (alist_get? config.random_sets_per_recipe recipe.id).getD 0))
        state_inventory.isSome recipe.id config.excluded_recipe_rarities,
      ∃ base cur,
        random_try_current rng base b.1
          (build_candidate_pools item_db config state_inventory none).2
          recipe.permanent_count recipe.usable_count state_inventory.isSome =
          some cur ∧
        S = List.insertionSort (· ≤ ·) cur := by
  rw [generate_random_sets_for_recipe] at hS
  have hS1 := mem_ite_nil _ _ _ hS
  have hS2 := mem_ite_nil _ _ _ hS1
  have hS3 := mem_ite_nil _ _ _ hS2
  have hS4 := mem_ite_nil _ _ _ hS3
  have hS5 := mem_ite_nil _ _ _ hS4
  rcases random_fold_mem rng _ _ _ _ S _ _ hS5 with habs | ⟨b, hb, hex⟩
  · exact absurd habs (List.not_mem_nil S)
  · exact ⟨b, hb, hex⟩

/-- C10: every candidate ingredient set returned by
`generate_greedy_sets_for_recipe` or `generate_random_sets_for_recipe` has
permanent ingredients of one single rarity only — the budget distribution
partitions the permanent pool by rarity, each greedy window or random draw
is taken from exactly one rarity sub-pool, and the remaining elements come
from the usable pool, whose items are never permanent. -/
theorem C10_single_rarity_sets (item_db : List Item) (recipe : Recipe)
    (config : OptimizerConfig) (state_inventory : Option (List (Int × Int)))
    (vf : Option (Int → ℚ)) (rng : Nat → Nat)
    (hid : (item_db.map (fun it => it.id)).Nodup) :
    (∀ S ∈ generate_greedy_sets_for_recipe item_db recipe config
        state_inventory vf,
      ∀ x ∈ S, ∀ y ∈ S, ∀ itx ity, db_get item_db x = some itx →
        db_get item_db y = some ity → itx.is_permanent = true →
        ity.is_permanent = true → itx.rarity = ity.rarity) ∧
    (∀ S ∈ generate_random_sets_for_recipe rng item_db recipe config
        state_inventory,
      ∀ x ∈ S, ∀ y ∈ S, ∀ itx ity, db_get item_db x = some itx →
        db_get item_db y = some ity → itx.is_permanent = true →
        ity.is_permanent = true → itx.rarity = ity.rarity) := by
  constructor
  · intro S hS
    obtain ⟨b, hb, cur, hcur, heq⟩ := greedy_set_sources item_db recipe config
      state_inventory vf S hS
    have hshape := (batch_shape _ _ _ _ _ _ _ _ b hb).1
    have hmain := cur_single_rarity item_db config state_inventory vf hid
      b.1 _ cur hshape hcur
    intro x hx y hy
    rw [heq] at hx hy
    exact hmain x ((List.perm_insertionSort _ _).mem_iff.1 hx)
      y ((List.perm_insertionSort _ _).mem_iff.1 hy)
  · intro S hS
    obtain ⟨b, hb, base, cur, htry, heq⟩ := random_set_sources rng item_db
      recipe config state_inventory S hS
    obtain ⟨hshape, hne⟩ := batch_shape _ _ _ _ _ _ _ _ b hb
    have hcur := random_try_current_mem rng base b.1
      (build_candidate_pools item_db config state_inventory none).2
      recipe.permanent_count recipe.usable_count state_inventory.isSome cur
      hne htry
    have hmain := cur_single_rarity item_db config state_inventory none hid
      b.1 _ cur hshape hcur
    intro x hx y hy
    rw [heq] at hx hy
    exact hmain x ((List.perm_insertionSort _ _).mem_iff.1 hx)
      y ((List.perm_insertionSort _ _).mem_iff.1 hy)

/-- Concrete instantiation of `C10_single_rarity_sets`: on a five-item
database (two common permanents, two uncommon permanents, one oil) the
greedy generator emits `[1, 2]` and the random generator emits `[1, 1]`,
and the theorem applies with its `Nodup` hypothesis discharged by
computation. -/
theorem C10_single_rarity_sets_witness :
    (([⟨1, ItemType.regular, 0, 5⟩, ⟨2, ItemType.regular, 0, 5⟩,
        ⟨3, ItemType.regular, 1, 5⟩, ⟨4, ItemType.regular, 1, 5⟩,
        ⟨5, ItemType.oil, 0, 5⟩] : List Item).map (fun it => it.id)).Nodup ∧
    [1, 2] ∈ generate_greedy_sets_for_recipe
      [⟨1, ItemType.regular, 0, 5⟩, ⟨2, ItemType.regular, 0, 5⟩,
       ⟨3, ItemType.regular, 1, 5⟩, ⟨4, ItemType.regular, 1, 5⟩,
       ⟨5, ItemType.oil, 0, 5⟩]
      ⟨1, 2, 0, ResultItemType.permanent, 1, 0, 0, 0⟩
      ⟨[], none, none, none, [(-1, 5)], [(-1, 5)], []⟩ none none ∧
    [1, 1] ∈ generate_random_sets_for_recipe (fun _ => 0)
      [⟨1, ItemType.regular, 0, 5⟩, ⟨2, ItemType.regular, 0, 5⟩,
       ⟨3, ItemType.regular, 1, 5⟩, ⟨4, ItemType.regular, 1, 5⟩,
       ⟨5, ItemType.oil, 0, 5⟩]
      ⟨1, 2, 0, ResultItemType.permanent, 1, 0, 0, 0⟩
      ⟨[], none, none, none, [(-1, 5)], [(-1, 5)], []⟩ none ∧
    ∀ itx ity,
      db_get [⟨1, ItemType.regular, 0, 5⟩, ⟨2, ItemType.regular, 0, 5⟩,
        ⟨3, ItemType.regular, 1, 5⟩, ⟨4, ItemType.regular, 1, 5⟩,
        ⟨5, ItemType.oil, 0, 5⟩] 1 = some itx →
      db_get [⟨1, ItemType.regular, 0, 5⟩, ⟨2, ItemType.regular, 0, 5⟩,
        ⟨3, ItemType.regular, 1, 5⟩, ⟨4, ItemType.regular, 1, 5⟩,
        ⟨5, ItemType.oil, 0, 5⟩] 2 = some ity →
      itx.is_permanent = true → ity.is_permanent = true →
      itx.rarity = ity.rarity := by
  refine ⟨by decide, by decide, by decide, ?_⟩
  intro itx ity hgx hgy hpx hpy
  exact (C10_single_rarity_sets
    [⟨1, ItemType.regular, 0, 5⟩, ⟨2, ItemType.regular, 0, 5⟩,
     ⟨3, ItemType.regular, 1, 5⟩, ⟨4, ItemType.regular, 1, 5⟩,
     ⟨5, ItemType.oil, 0, 5⟩]
    ⟨1, 2, 0, ResultItemType.permanent, 1, 0, 0, 0⟩
    ⟨[], none, none, none, [(-1, 5)], [(-1, 5)], []⟩ none none (fun _ => 0)
    (by decide)).1 [1, 2] (by decide) 1 (by decide) 2 (by decide)
    itx ity hgx hgy hpx hpy

end HoradricCube
